import Mathlib

/-!
# whitelist-checker: a verification development of `main.go`

The file embeds the probing core of `main.go` in Lean:

* `check` (lines 75-115): the staged probe of one host, over an explicit
  network oracle, with the trace of network calls it performs;
* `run` (lines 117-156): the bounded runner, as a step function over an
  explicit state (main goroutine, worker goroutines, progress consumer,
  semaphore channel, progress channel, wait group);
* `status` (lines 158-169), `score` (lines 179-190) and the verdict switch
  of `main` (lines 208-217).
-/

namespace WLC

/-! ## Data model -/

/-- The record `Result` of `main.go` (lines 67-73). -/
structure Result where
  Host : String
  DNS : Bool
  TCP80 : Bool
  TCP443 : Bool
  HTTP : Bool
deriving DecidableEq, Repr

/-- The network as one call of `check` sees it: the outcome of every
operation it may perform. `LookupIPAddr host` gives the number of addresses
returned and whether `err == nil`; `Dial network address` and `Get url` say
whether `err == nil`. -/
structure Net where
  LookupIPAddr : String → Nat × Bool
  Dial : String → String → Bool
  Get : String → Bool

/-- A network operation performed by `check`. -/
inductive Call where
  | lookup (host : String)
  | dial (network address : String)
  | get (url : String)
deriving DecidableEq, Repr

/-! ## `check` -/

/-- The loop of lines 102-112: fetch the URLs in order, stop at the first
one that answers without error. -/
def httpLoop (net : Net) : List String → Result × List Call → Result × List Call
  | [], acc => acc
  | u :: us, (r, tr) =>
    if net.Get u then
      ({ r with HTTP := true }, tr ++ [Call.get u])
    else
      httpLoop net us (r, tr ++ [Call.get u])

/-- Lines 76-99 of `check`: the DNS stage, then the two TCP dials when DNS
succeeded. Returns the `Result` so far and the network calls made, in order. -/
def dnsTcpStage (net : Net) (host : String) : Result × List Call :=
  let r : Result := { Host := host, DNS := false, TCP80 := false, TCP443 := false, HTTP := false }
  -- dns
  let ips := net.LookupIPAddr host
  let tr := [Call.lookup host]
  let r := if ips.2 && decide (ips.1 > 0) then { r with DNS := true } else r
  -- tcp
  if r.DNS then
    let ok80 := net.Dial "tcp" (host ++ ":80")
    let r := if ok80 then { r with TCP80 := true } else r
    let tr := tr ++ [Call.dial "tcp" (host ++ ":80")]
    let ok443 := net.Dial "tcp" (host ++ ":443")
    let r := if ok443 then { r with TCP443 := true } else r
    let tr := tr ++ [Call.dial "tcp" (host ++ ":443")]
    (r, tr)
  else (r, tr)

/-- The function `check` of `main.go` (lines 75-115), returning the `Result`
together with the network calls made, in order. -/
def checkTraced (net : Net) (host : String) : Result × List Call :=
  httpLoop net ["https://" ++ host, "http://" ++ host] (dnsTcpStage net host)

/-- The `Result` returned by `check`. -/
def check (net : Net) (host : String) : Result :=
  (checkTraced net host).1

/-- Is the call a TCP dial? -/
def Call.isDial : Call → Bool
  | Call.dial _ _ => true
  | _ => false

/-- The URLs fetched by a trace, in order. -/
def fetched : List Call → List String
  | [] => []
  | Call.get u :: cs => u :: fetched cs
  | _ :: cs => fetched cs

/-! ## `status` -/

/-- The function `status` of `main.go` (lines 158-169). -/
def status (r : Result) : String :=
  if r.HTTP then "OK"
  else if r.TCP80 || r.TCP443 then "TCP"
  else if r.DNS then "DNS"
  else "FAIL"

/-! ## `run`: the bounded runner as a transition system

A state records the shared variables of `run` (lines 117-156) and the
program counter of every goroutine. One step is one atomic action of one
goroutine; a step that would block is not enabled. -/

/-- The package variable `workers` (line 58). -/
def workers : Nat := 10

/-- What a run is given: the host list, the network as seen by the call of
`check` made for index `i`, and the worker ceiling (`workers`). -/
structure Config where
  sites : List String
  net : Nat → Net
  W : Nat

/-- Program counter of a worker goroutine (lines 137-143). -/
inductive WorkerPc where
  /-- spawned, `check(host)` has not returned yet -/
  | call
  /-- the call of `check` returned `r`, the assignment `out[i] = r` is pending -/
  | store (r : Result)
  /-- the send `progressChan <- struct{}{}` is pending -/
  | send
  /-- the deferred `<-sem` is pending -/
  | release
  /-- the deferred `wg.Done()` is pending -/
  | done
  | exited
deriving DecidableEq, Repr

/-- A worker goroutine: its arguments `i`, `host` and its program counter. -/
structure Worker where
  i : Nat
  host : String
  pc : WorkerPc
deriving DecidableEq, Repr

/-- Program counter of the goroutine executing `run`. -/
inductive MainPc where
  /-- head of loop iteration `i` (line 134), then `sem <- struct{}{}` -/
  | loop (i : Nat)
  /-- permit acquired, `go func(i, s)` pending (line 137) -/
  | spawn (i : Nat)
  /-- the consumer goroutine is about to be started (line 146) -/
  | startConsumer
  /-- at `wg.Wait()` (line 152) -/
  | wait
  /-- at `close(progressChan)` (line 153) -/
  | close
  /-- after `return out` (line 155) -/
  | returned
deriving DecidableEq, Repr

/-- Program counter of the progress consumer (lines 146-150). -/
inductive ConsumerPc where
  | notStarted
  /-- waiting to receive from `progressChan` -/
  | recv
  /-- a signal was received, `bar.Add(1)` is pending -/
  | add
  | exited
deriving DecidableEq, Repr

/-- State of one execution of `run`. `sem` and `progress` are the numbers of
elements buffered in the channels `sem` and `progressChan`; `bar` counts the
calls of `bar.Add(1)`. `sent` and `writes` are history variables: the number
of sends on `progressChan` so far, and the assignments to `out` so far as
pairs (slot, position of the writing worker in spawn order). -/
structure State where
  out : List Result
  wg : Nat
  sem : Nat
  progress : Nat
  closed : Bool
  bar : Nat
  main : MainPc
  workers : List Worker
  consumer : ConsumerPc
  sent : Nat
  writes : List (Nat × Nat)
deriving DecidableEq, Repr

/-- The zero value of `Result`. -/
def Result.zero : Result :=
  { Host := "", DNS := false, TCP80 := false, TCP443 := false, HTTP := false }

/-- State after lines 118-132: `out` pre-sized, `wg.Add(len(sites))`, both
channels empty, no goroutine spawned. -/
def State.init (c : Config) : State :=
  { out := List.replicate c.sites.length Result.zero
    wg := c.sites.length
    sem := 0
    progress := 0
    closed := false
    bar := 0
    main := MainPc.loop 0
    workers := []
    consumer := ConsumerPc.notStarted
    sent := 0
    writes := [] }

/-- One action of the goroutine executing `run`. -/
def stepMain (c : Config) (s : State) : Option State :=
  match s.main with
  | MainPc.loop i =>
    if i < c.sites.length then
      -- `sem <- struct{}{}` blocks while the channel holds `W` elements
      if s.sem < c.W then some { s with sem := s.sem + 1, main := MainPc.spawn i } else none
    else some { s with main := MainPc.startConsumer }
  | MainPc.spawn i =>
    match c.sites[i]? with
    | some h =>
      some { s with workers := s.workers ++ [{ i := i, host := h, pc := WorkerPc.call }],
                    main := MainPc.loop (i + 1) }
    | none => none
  | MainPc.startConsumer => some { s with consumer := ConsumerPc.recv, main := MainPc.wait }
  | MainPc.wait => if s.wg = 0 then some { s with main := MainPc.close } else none
  | MainPc.close => some { s with closed := true, main := MainPc.returned }
  | MainPc.returned => none

/-- One action of the worker at position `j` in spawn order. A step that
would panic (index out of range, send on a closed channel, negative wait
group counter) is not enabled. -/
def stepWorker (c : Config) (j : Nat) (s : State) : Option State :=
  match s.workers[j]? with
  | none => none
  | some w =>
    match w.pc with
    | WorkerPc.call =>
      some { s with workers := s.workers.set j { w with pc := WorkerPc.store (check (c.net w.i) w.host) } }
    | WorkerPc.store r =>
      if w.i < s.out.length then
        some { s with out := s.out.set w.i r, writes := s.writes ++ [(w.i, j)],
                      workers := s.workers.set j { w with pc := WorkerPc.send } }
      else none
    | WorkerPc.send =>
      -- the channel has capacity `len(sites)`
      if s.closed = false ∧ s.progress < c.sites.length then
        some { s with progress := s.progress + 1, sent := s.sent + 1,
                      workers := s.workers.set j { w with pc := WorkerPc.release } }
      else none
    | WorkerPc.release =>
      if 0 < s.sem then
        some { s with sem := s.sem - 1, workers := s.workers.set j { w with pc := WorkerPc.done } }
      else none
    | WorkerPc.done =>
      if 0 < s.wg then
        some { s with wg := s.wg - 1, workers := s.workers.set j { w with pc := WorkerPc.exited } }
      else none
    | WorkerPc.exited => none

/-- One action of the progress consumer: receive a buffered signal, call
`bar.Add(1)`, or leave the loop once the channel is closed and empty. -/
def stepConsumer (s : State) : Option State :=
  match s.consumer with
  | ConsumerPc.notStarted => none
  | ConsumerPc.recv =>
    if 0 < s.progress then some { s with progress := s.progress - 1, consumer := ConsumerPc.add }
    else if s.closed then some { s with consumer := ConsumerPc.exited }
    else none
  | ConsumerPc.add => some { s with bar := s.bar + 1, consumer := ConsumerPc.recv }
  | ConsumerPc.exited => none

/-- The goroutines of a run. -/
inductive Actor where
  | main
  | worker (j : Nat)
  | consumer
deriving DecidableEq, Repr

/-- One scheduling step: the chosen goroutine performs its next action, if
it is enabled. -/
def step (c : Config) (a : Actor) (s : State) : Option State :=
  match a with
  | Actor.main => stepMain c s
  | Actor.worker j => stepWorker c j s
  | Actor.consumer => stepConsumer s

/-- Run a schedule (a list of scheduling choices) from a state; `none` when
a chosen goroutine is not enabled. -/
def exec (c : Config) : List Actor → State → Option State
  | [], s => some s
  | a :: as, s =>
    match step c a s with
    | some s1 => exec c as s1
    | none => none

/-- The function `run` of `main.go` (lines 117-156) under a schedule: the
slice returned, when the schedule is executable and ends after `return out`. -/
def run (c : Config) (sched : List Actor) : Option (List Result) :=
  match exec c sched (State.init c) with
  | some s => if s.main = MainPc.returned then some s.out else none
  | none => none

/-- States reachable from the initial state under some interleaving. -/
inductive Reachable (c : Config) : State → Prop where
  | init : Reachable c (State.init c)
  | step {s s1 : State} (a : Actor) : Reachable c s → step c a s = some s1 → Reachable c s1

/-- Does the worker hold a permit of `sem`? -/
def WorkerPc.holds : WorkerPc → Bool
  | WorkerPc.done => false
  | WorkerPc.exited => false
  | _ => true

/-- Is the call of `check` still in flight? -/
def WorkerPc.inCheck : WorkerPc → Bool
  | WorkerPc.call => true
  | _ => false

/-- Has the worker assigned its slot of `out`? -/
def WorkerPc.stored : WorkerPc → Bool
  | WorkerPc.call => false
  | WorkerPc.store _ => false
  | _ => true

/-- Has the worker sent its progress signal? -/
def WorkerPc.hasSent : WorkerPc → Bool
  | WorkerPc.release => true
  | WorkerPc.done => true
  | WorkerPc.exited => true
  | _ => false

/-- Has the worker goroutine ended? -/
def WorkerPc.isExited : WorkerPc → Bool
  | WorkerPc.exited => true
  | _ => false

/-- Number of calls of `check` in flight: workers dispatched whose `check`
has not returned. -/
def State.inFlight (s : State) : Nat :=
  s.workers.countP (fun w => w.pc.inCheck)

/-- Number of workers holding a permit of the admission gate. -/
def State.holders (s : State) : Nat :=
  s.workers.countP (fun w => w.pc.holds)

/-- Has `run` returned? -/
def State.returned (s : State) : Bool :=
  decide (s.main = MainPc.returned)

/-- The worker ids that assigned slot `k` of `out`, in order. -/
def State.writersOf (s : State) (k : Nat) : List Nat :=
  (s.writes.filter (fun p => p.1 == k)).map Prod.snd

/-! ## `float64` arithmetic used by `score` and `main`

A finite `float64` is kept as a dyadic number `m * 2 ^ e`; comparisons
compare values, and conversions and division round to nearest, ties to even,
with 53 bits of precision, exponent range `-1022 .. 1023` and gradual
underflow. Zero carries no sign. -/

/-- Values of type `float64`; `fin m e` is the finite value `m * 2 ^ e`. -/
inductive F64 where
  | nan
  | negInf
  | fin (m : Int) (e : Int)
  | posInf
deriving DecidableEq, Repr

/-- Floor of the binary logarithm of `n` (0 for `n < 2`), by halving;
the first argument bounds the number of halvings. -/
def ilog2 : Nat → Nat → Nat
  | 0, _ => 0
  | fuel + 1, n => if n < 2 then 0 else ilog2 fuel (n / 2) + 1

/-- Floor of the binary logarithm of the ratio `p / q`, for positive `p`, `q`. -/
def ratioExp (p q : Nat) : Int :=
  let d : Int := (ilog2 p p : Int) - (ilog2 q q : Int)
  if q * 2 ^ d.toNat ≤ p * 2 ^ (-d).toNat then d else d - 1

/-- The integer nearest to `num / den`, the even one of the two when they are
equally near. -/
def roundNearestEven (num den : Nat) : Nat :=
  let f := num / den
  let r := num % den
  if 2 * r < den then f else if den < 2 * r then f + 1 else if f % 2 = 0 then f else f + 1

/-- The `float64` nearest to `± p / q` (ties to even), for `0 < q`: with `e`
the binary exponent of the ratio, not below `-1022`, the ratio is rounded to
a multiple of `2 ^ (e - 52)`; a result of `2 ^ 1024` or more is infinite. -/
def roundRatio (neg : Bool) (p q : Nat) : F64 :=
  if p = 0 then F64.fin 0 0 else
  let e : Int := max (ratioExp p q) (-1022)
  let s : Int := 52 - e
  let m := roundNearestEven (p * 2 ^ s.toNat) (q * 2 ^ (-s).toNat)
  if 1024 ≤ e ∨ (e = 1023 ∧ 2 ^ 53 ≤ m) then (if neg then F64.negInf else F64.posInf)
  else F64.fin (if neg then -(m : Int) else m) (e - 52)

/-- The conversion `float64(n)` of an integer. -/
def F64.ofInt (n : Int) : F64 :=
  roundRatio (decide (n < 0)) n.natAbs 1

/-- The `float64` value of a decimal constant `p / q`, as in the literals
`0.6` and `0.3`. -/
def F64.lit (p q : Nat) : F64 :=
  roundRatio false p q

/-- The comparison `x < y` of `float64`. -/
def F64.lt : F64 → F64 → Bool
  | F64.nan, _ => false
  | _, F64.nan => false
  | F64.negInf, F64.negInf => false
  | F64.negInf, _ => true
  | _, F64.negInf => false
  | F64.posInf, _ => false
  | F64.fin _ _, F64.posInf => true
  | F64.fin m1 e1, F64.fin m2 e2 =>
    let e := min e1 e2
    decide (m1 * 2 ^ (e1 - e).toNat < m2 * 2 ^ (e2 - e).toNat)

/-- The comparison `x > y` of `float64`. -/
def F64.gt (x y : F64) : Bool :=
  F64.lt y x

/-- The comparison `x == y` of `float64`. -/
def F64.eq : F64 → F64 → Bool
  | F64.nan, _ => false
  | _, F64.nan => false
  | F64.negInf, F64.negInf => true
  | F64.posInf, F64.posInf => true
  | F64.fin m1 e1, F64.fin m2 e2 =>
    let e := min e1 e2
    decide (m1 * 2 ^ (e1 - e).toNat = m2 * 2 ^ (e2 - e).toNat)
  | _, _ => false

/-- The division `x / y` of `float64`. -/
def F64.div : F64 → F64 → F64
  | F64.nan, _ => F64.nan
  | _, F64.nan => F64.nan
  | F64.fin m1 e1, F64.fin m2 e2 =>
    if m2 = 0 then
      (if m1 = 0 then F64.nan else if 0 < m1 then F64.posInf else F64.negInf)
    else
      let e := min e1 e2
      roundRatio (decide (m1 < 0) != decide (m2 < 0))
        (m1.natAbs * 2 ^ (e1 - e).toNat) (m2.natAbs * 2 ^ (e2 - e).toNat)
  | F64.fin _ _, _ => F64.fin 0 0
  | F64.posInf, F64.fin m _ => if m < 0 then F64.negInf else F64.posInf
  | F64.negInf, F64.fin m _ => if m < 0 then F64.posInf else F64.negInf
  | _, _ => F64.nan

/-- The exact value of a finite `float64`. -/
def F64.toRat : F64 → Option ℚ
  | F64.fin m e => some ((m : ℚ) * (2 : ℚ) ^ e)
  | _ => none

/-! ## `score` and the verdict of `main` -/

/-- The counting loop of `score` (lines 183-188), from the counter `ok`. -/
def scoreLoop : List Result → Int → Int
  | [], ok => ok
  | r :: rs, ok => scoreLoop rs (if r.HTTP then ok + 1 else ok)

/-- The function `score` of `main.go` (lines 179-190). -/
def score (results : List Result) : F64 :=
  if results.length = 0 then F64.fin 0 0
  else F64.div (F64.ofInt (scoreLoop results 0)) (F64.ofInt results.length)

/-- A `switch` without tag: the body of the first case whose condition
holds, otherwise the default. -/
def switchOn {α : Type} : List (Bool × α) → α → α
  | [], d => d
  | (b, x) :: cs, d => if b then x else switchOn cs d

/-- The cases of the `switch` of `main` (lines 208-214), in source order,
each with the line it prints. -/
def verdictCases (rAllowed rNormal : F64) : List (Bool × String) :=
  [ (F64.gt rAllowed (F64.lit 6 10) && F64.lt rNormal (F64.lit 3 10),
      "Вероятно активен белый список"),
    (F64.gt rAllowed (F64.lit 6 10) && F64.gt rNormal (F64.lit 6 10),
      "Интернет работает нормально"),
    (F64.lt rAllowed (F64.lit 3 10) && F64.lt rNormal (F64.lit 3 10),
      "Интернет почти полностью недоступен") ]

/-- The line printed by the `switch` of `main` (lines 208-217). -/
def verdict (rAllowed rNormal : F64) : String :=
  switchOn (verdictCases rAllowed rNormal) "Результат неоднозначен."

/-- Permits of `sem` held by the goroutine executing `run`: one between the
send on `sem` and the `go` statement. -/
def MainPc.pending : MainPc → Nat
  | MainPc.spawn _ => 1
  | _ => 0

/-- Number of workers the goroutine executing `run` has spawned when it is at
the given program counter, for `n` hosts. -/
def MainPc.spawned (n : Nat) : MainPc → Nat
  | MainPc.loop i => i
  | MainPc.spawn i => i
  | _ => n

/-- Has the goroutine executing `run` started the progress consumer? -/
def MainPc.started : MainPc → Bool
  | MainPc.wait => true
  | MainPc.close => true
  | MainPc.returned => true
  | _ => false

/-- Signals received by the consumer and not yet passed to `bar.Add`. -/
def ConsumerPc.pending : ConsumerPc → Nat
  | ConsumerPc.add => 1
  | _ => 0

/-- Has the worker at position `k` assigned its slot of `out`? -/
def State.storedAt (s : State) (k : Nat) : Bool :=
  match s.workers[k]? with
  | some w => w.pc.stored
  | none => false

/-- Bound on the number of actions a worker still performs, counting twice
the signal it still has to send (the consumer handles it in two actions). -/
def WorkerPc.weight : WorkerPc → Nat
  | WorkerPc.call => 7
  | WorkerPc.store _ => 6
  | WorkerPc.send => 5
  | WorkerPc.release => 2
  | WorkerPc.done => 1
  | WorkerPc.exited => 0

/-- Bound on the number of actions still caused by the goroutine executing
`run`, for `n` hosts, counting those of the workers it still spawns. -/
def MainPc.weight (n : Nat) : MainPc → Nat
  | MainPc.loop i => 9 * (n - i) + 5
  | MainPc.spawn i => 9 * (n - i) + 4
  | MainPc.startConsumer => 4
  | MainPc.wait => 2
  | MainPc.close => 1
  | MainPc.returned => 0

/-- Bound on the actions of the consumer that do not handle a signal. -/
def ConsumerPc.weight : ConsumerPc → Nat
  | ConsumerPc.notStarted => 1
  | ConsumerPc.recv => 1
  | ConsumerPc.add => 2
  | ConsumerPc.exited => 0

/-- A bound on the number of steps left from a state: every step lowers it. -/
def State.measure (c : Config) (s : State) : Nat :=
  s.main.weight c.sites.length + (s.workers.map (fun w => w.pc.weight)).sum +
    2 * s.progress + s.consumer.weight

/-- The goroutines other than the progress consumer. -/
def Actor.notConsumer : Actor → Bool
  | Actor.consumer => false
  | _ => true

/-- The predicate `Inevitably c allowed P s`: when only the goroutines in `allowed` are
scheduled, every maximal execution from `s` reaches a state satisfying `P`:
either `P` holds now, or some allowed step is enabled and every allowed step
leads to a state from which `P` is inevitable. -/
inductive Inevitably (c : Config) (allowed : Actor → Bool) (P : State → Prop) : State → Prop where
  | now {s : State} : P s → Inevitably c allowed P s
  | later {s : State} :
      (∃ a s1, allowed a = true ∧ step c a s = some s1) →
      (∀ a s1, allowed a = true → step c a s = some s1 → Inevitably c allowed P s1) →
      Inevitably c allowed P s

/-- The facts that hold in every reachable state of a run. -/
structure Inv (c : Config) (s : State) : Prop where
  out_len : s.out.length = c.sites.length
  wk : ∀ (j : Nat) (w : Worker), s.workers[j]? = some w → w.i = j ∧ c.sites[j]? = some w.host
  main_len : s.workers.length = s.main.spawned c.sites.length
  spawn_lt : ∀ i, s.main = MainPc.spawn i → i < c.sites.length
  sem_eq : s.sem = s.holders + s.main.pending
  sem_le : s.sem ≤ c.W
  wg_eq : s.wg + s.workers.countP (fun w => w.pc.isExited) = c.sites.length
  sent_eq : s.sent = s.workers.countP (fun w => w.pc.hasSent)
  prog_eq : s.progress + s.bar + s.consumer.pending = s.sent
  closed_ret : s.closed = true → s.main = MainPc.returned
  late_wg : s.main = MainPc.close ∨ s.main = MainPc.returned → s.wg = 0
  cons_exit : s.consumer = ConsumerPc.exited → s.closed = true ∧ s.progress = 0
  cons_ns : s.consumer = ConsumerPc.notStarted → s.bar = 0
  cons_started : s.main.started = false → s.consumer = ConsumerPc.notStarted
  stored_ok : ∀ (j : Nat) (w : Worker), s.workers[j]? = some w →
    (w.pc.stored = true → s.out[j]? = some (check (c.net j) w.host)) ∧
    (∀ r, w.pc = WorkerPc.store r → r = check (c.net j) w.host)
  writes_ok : ∀ k, s.writersOf k = if s.storedAt k then [k] else []

/-! ## The host lists of `main.go` and sample runs -/

/-- The variable `allowedSites` (lines 14-38). -/
def allowedSites : List String :=
  ["yandex.ru", "ya.ru", "vk.com", "mail.ru", "ok.ru", "max.ru", "gosuslugi.ru", "tinkoff.ru",
   "sber.ru", "alfa-bank.ru", "gazprombank.ru", "vtb.ru", "ozon.ru", "wildberries.ru",
   "avito.ru", "drom.ru", "cian.ru", "pochta.ru", "mos.ru", "nalog.gov.ru", "kremlin.ru",
   "ria.ru", "yandex.net"]

/-- The variable `normalSites` (lines 40-56). -/
def normalSites : List String :=
  ["google.com", "wikipedia.org", "youtube.com", "github.com", "reddit.com",
   "steamcommunity.com", "t.me", "chatgpt.com", "archive.org", "cloudflare.com",
   "openstreetmap.org", "mozilla.org", "example.org", "ovh.com", "spotify.com"]

/-- A network on which every operation succeeds. -/
def Net.up : Net :=
  { LookupIPAddr := fun _ => (1, true), Dial := fun _ _ => true, Get := fun _ => true }

/-- A network on which every operation fails. -/
def Net.down : Net :=
  { LookupIPAddr := fun _ => (0, false), Dial := fun _ _ => false, Get := fun _ => false }

/-- The call `run(allowedSites)` of `main` on a working network. -/
def cfgAllowed : Config :=
  { sites := allowedSites, net := fun _ => Net.up, W := workers }

/-- The call `run(normalSites)` of `main` with every general site unreachable. -/
def cfgNormal : Config :=
  { sites := normalSites, net := fun _ => Net.down, W := workers }

/-- A run over two hosts, the first reachable, the second not. -/
def cfgTwo : Config :=
  { sites := ["ya.ru", "t.me"], net := fun i => if i = 0 then Net.up else Net.down,
    W := workers }

/-- The five actions of worker `j`, from the return of `check` to `wg.Done()`. -/
def workerRun (j : Nat) : List Actor :=
  List.replicate 5 (Actor.worker j)

/-- Schedule for two hosts in which the second worker completes before the
first one starts `check`. -/
def schedTwo : List Actor :=
  List.replicate 6 Actor.main ++ workerRun 1 ++ workerRun 0 ++ List.replicate 2 Actor.main

/-- Schedule for `n` hosts that runs each worker to completion right after
it is spawned, starts the consumer, and returns from `run` before the
consumer is scheduled at all. -/
def schedNoConsumer (n : Nat) : List Actor :=
  (List.range n).flatMap (fun j => [Actor.main, Actor.main] ++ workerRun j) ++
    List.replicate 4 Actor.main

/-- The consumer taking and passing on `n` signals, then leaving its loop. -/
def drain (n : Nat) : List Actor :=
  List.replicate (2 * n) Actor.consumer ++ [Actor.consumer]

/-- The state a schedule leads to from the initial state (the initial state
itself when the schedule is not executable). -/
def stateAfter (c : Config) (as : List Actor) : State :=
  (exec c as (State.init c)).getD (State.init c)

/-! ## Theorems about `check` and `status` -/

theorem httpLoop_two (net : Net) (u1 u2 : String) (rt : Result × List Call) :
    httpLoop net [u1, u2] rt =
      if net.Get u1 then ({ rt.1 with HTTP := true }, rt.2 ++ [Call.get u1])
      else if net.Get u2 then ({ rt.1 with HTTP := true }, rt.2 ++ [Call.get u1] ++ [Call.get u2])
      else (rt.1, rt.2 ++ [Call.get u1] ++ [Call.get u2]) := by
  obtain ⟨r, tr⟩ := rt
  simp only [httpLoop]

theorem fetched_append (xs ys : List Call) : fetched (xs ++ ys) = fetched xs ++ fetched ys := by
  induction xs with
  | nil => rfl
  | cons c cs ih => cases c <;> simp [fetched, ih]

theorem dnsTcpStage_http (net : Net) (host : String) :
    (dnsTcpStage net host).1.HTTP = false ∧ fetched (dnsTcpStage net host).2 = [] := by
  unfold dnsTcpStage
  dsimp only
  generalize net.LookupIPAddr host = ips
  generalize net.Dial "tcp" (host ++ ":80") = a
  generalize net.Dial "tcp" (host ++ ":443") = b
  obtain ⟨n, ok⟩ := ips
  cases ok <;> cases a <;> cases b <;> by_cases h : 0 < n <;> simp [fetched, h]

theorem dnsTcpStage_fail (net : Net) (host : String)
    (hdns : (net.LookupIPAddr host).2 = false ∨ (net.LookupIPAddr host).1 = 0) :
    dnsTcpStage net host =
      ({ Host := host, DNS := false, TCP80 := false, TCP443 := false, HTTP := false },
        [Call.lookup host]) := by
  have hcond : ((net.LookupIPAddr host).2 && decide ((net.LookupIPAddr host).1 > 0)) = false := by
    rcases hdns with h | h <;> simp [h]
  unfold dnsTcpStage
  simp only [hcond]
  rfl

/-- C4. When the DNS stage of `check` fails (lookup error, or no address),
the result has DNS, TCP80 and TCP443 false and no TCP dial is performed; the
HTTP field is the disjunction of the two fetch outcomes, hence the same for
any two networks that agree on the fetches; and for the same host there are
networks with a failing DNS stage giving HTTP true, and others giving HTTP
false. -/
theorem check_dns_fail (net : Net) (host : String)
    (hdns : (net.LookupIPAddr host).2 = false ∨ (net.LookupIPAddr host).1 = 0) :
    (check net host).DNS = false ∧ (check net host).TCP80 = false ∧
    (check net host).TCP443 = false ∧
    (∀ c ∈ (checkTraced net host).2, c.isDial = false) ∧
    (check net host).HTTP = (net.Get ("https://" ++ host) || net.Get ("http://" ++ host)) ∧
    (∀ net2 : Net, net2.Get = net.Get →
      ((net2.LookupIPAddr host).2 = false ∨ (net2.LookupIPAddr host).1 = 0) →
      (check net2 host).HTTP = (check net host).HTTP) ∧
    (∃ n1 : Net, ((n1.LookupIPAddr host).2 = false ∨ (n1.LookupIPAddr host).1 = 0) ∧
      (check n1 host).HTTP = true) ∧
    (∃ n2 : Net, ((n2.LookupIPAddr host).2 = false ∨ (n2.LookupIPAddr host).1 = 0) ∧
      (check n2 host).HTTP = false) := by
  have key : ∀ n : Net, ((n.LookupIPAddr host).2 = false ∨ (n.LookupIPAddr host).1 = 0) →
      (check n host).DNS = false ∧ (check n host).TCP80 = false ∧
      (check n host).TCP443 = false ∧
      (∀ c ∈ (checkTraced n host).2, c.isDial = false) ∧
      (check n host).HTTP = (n.Get ("https://" ++ host) || n.Get ("http://" ++ host)) := by
    intro n hn
    unfold check checkTraced
    rw [dnsTcpStage_fail n host hn, httpLoop_two]
    cases h1 : n.Get ("https://" ++ host) <;> cases h2 : n.Get ("http://" ++ host) <;>
      simp [Call.isDial]
  obtain ⟨k1, k2, k3, k4, k5⟩ := key net hdns
  refine ⟨k1, k2, k3, k4, k5, ?_, ?_, ?_⟩
  · intro net2 hget h2
    rw [(key net2 h2).2.2.2.2, k5, hget]
  · refine ⟨⟨fun _ => (0, false), fun _ _ => false, fun _ => true⟩, Or.inl rfl, ?_⟩
    rw [(key _ (Or.inl rfl)).2.2.2.2]
    rfl
  · refine ⟨⟨fun _ => (0, false), fun _ _ => false, fun _ => false⟩, Or.inl rfl, ?_⟩
    rw [(key _ (Or.inl rfl)).2.2.2.2]
    rfl

/-- Witness of C4: a host whose lookup errors while the HTTPS fetch answers. -/
theorem check_dns_fail_witness :
    (check ⟨fun _ => (0, false), fun _ _ => true, fun _ => true⟩ "ya.ru").TCP80 = false ∧
    (check ⟨fun _ => (0, false), fun _ _ => true, fun _ => true⟩ "ya.ru").HTTP = true :=
  have h := check_dns_fail ⟨fun _ => (0, false), fun _ _ => true, fun _ => true⟩ "ya.ru"
    (Or.inl rfl)
  ⟨h.2.1, h.2.2.2.2.1.trans rfl⟩

/-- C5. The HTTP stage of `check` fetches `https://host` first. If that
fetch answers, HTTP is true and it is the only fetch made; otherwise
`http://host` is fetched next and HTTP is the outcome of that second fetch.
So HTTP is true exactly when one of the two attempts answered. -/
theorem check_http_stage (net : Net) (host : String) :
    fetched (checkTraced net host).2 =
      (if net.Get ("https://" ++ host) then ["https://" ++ host]
       else ["https://" ++ host, "http://" ++ host]) ∧
    (check net host).HTTP =
      (if net.Get ("https://" ++ host) then true else net.Get ("http://" ++ host)) ∧
    ((check net host).HTTP = true ↔
      (net.Get ("https://" ++ host) = true ∨ net.Get ("http://" ++ host) = true)) := by
  obtain ⟨k1, k2⟩ := dnsTcpStage_http net host
  unfold check checkTraced
  rw [httpLoop_two]
  cases h1 : net.Get ("https://" ++ host) <;> cases h2 : net.Get ("http://" ++ host) <;>
    simp [fetched, fetched_append, k1, k2]

/-- C8. The label of `status`: OK when HTTP holds; otherwise TCP when TCP80
or TCP443 holds; otherwise DNS when DNS holds; otherwise FAIL. The label is
one of these four and does not depend on the host. -/
theorem status_spec (r : Result) :
    (r.HTTP = true → status r = "OK") ∧
    (r.HTTP = false → (r.TCP80 = true ∨ r.TCP443 = true) → status r = "TCP") ∧
    (r.HTTP = false → r.TCP80 = false → r.TCP443 = false → r.DNS = true → status r = "DNS") ∧
    (r.HTTP = false → r.TCP80 = false → r.TCP443 = false → r.DNS = false →
      status r = "FAIL") ∧
    status r ∈ ["OK", "TCP", "DNS", "FAIL"] ∧
    (∀ h : String, status { r with Host := h } = status r) := by
  obtain ⟨host, dns, t80, t443, http⟩ := r
  cases dns <;> cases t80 <;> cases t443 <;> cases http <;> simp [status]

/-! ## `float64` comparisons and the verdict of `main` -/

theorem two_zpow_split (e1 e : Int) (h : e ≤ e1) :
    (2 : ℚ) ^ e1 = (2 : ℚ) ^ (e1 - e).toNat * (2 : ℚ) ^ e := by
  have h1 : e1 = ((e1 - e).toNat : Int) + e := by
    rw [Int.toNat_of_nonneg (by omega)]; omega
  conv_lhs => rw [h1]
  rw [zpow_add₀ (by norm_num : (2 : ℚ) ≠ 0), zpow_natCast]

theorem F64.lt_fin_iff (m1 e1 m2 e2 : Int) :
    F64.lt (F64.fin m1 e1) (F64.fin m2 e2) = true ↔
      (m1 : ℚ) * (2 : ℚ) ^ e1 < (m2 : ℚ) * (2 : ℚ) ^ e2 := by
  have hpos : (0 : ℚ) < (2 : ℚ) ^ (min e1 e2) := by positivity
  rw [two_zpow_split e1 (min e1 e2) (min_le_left _ _),
    two_zpow_split e2 (min e1 e2) (min_le_right _ _), ← mul_assoc, ← mul_assoc,
    mul_lt_mul_right hpos]
  simp only [F64.lt, decide_eq_true_eq]
  rw [← @Int.cast_lt ℚ]
  push_cast
  rfl

theorem lit_6_10 : F64.lit 6 10 = F64.fin 5404319552844595 (-53) := by decide
theorem lit_3_10 : F64.lit 3 10 = F64.fin 5404319552844595 (-54) := by decide

theorem F64.not_between (x : F64) (h1 : F64.lt (F64.lit 6 10) x = true)
    (h2 : F64.lt x (F64.lit 3 10) = true) : False := by
  rw [lit_6_10] at h1
  rw [lit_3_10] at h2
  cases x with
  | nan => simp [F64.lt] at h1
  | negInf => simp [F64.lt] at h1
  | posInf => simp [F64.lt] at h2
  | fin m e =>
    rw [F64.lt_fin_iff] at h1 h2
    have h3 := lt_trans h1 h2
    norm_num at h3

theorem switchOn_perm3 {α : Type} (b1 b2 b3 : Bool) (x1 x2 x3 d : α)
    (h12 : ¬(b1 = true ∧ b2 = true)) (h13 : ¬(b1 = true ∧ b3 = true))
    (h23 : ¬(b2 = true ∧ b3 = true)) (cs : List (Bool × α))
    (hp : cs.Perm [(b1, x1), (b2, x2), (b3, x3)]) :
    switchOn cs d = switchOn [(b1, x1), (b2, x2), (b3, x3)] d := by
  have hlen : cs.length = 3 := by simpa using hp.length_eq
  match cs, hlen with
  | [c1, c2, c3], _ =>
    have m1 := hp.subset (List.mem_cons_self _ _)
    have m2 := hp.subset (List.mem_cons_of_mem _ (List.mem_cons_self _ _))
    have m3 := hp.subset (List.mem_cons_of_mem _ (List.mem_cons_of_mem _ (List.mem_cons_self _ _)))
    have n1 := hp.symm.subset (List.mem_cons_self _ _)
    have n2 := hp.symm.subset (List.mem_cons_of_mem _ (List.mem_cons_self _ _))
    have n3 := hp.symm.subset
      (List.mem_cons_of_mem _ (List.mem_cons_of_mem _ (List.mem_cons_self _ _)))
    simp only [List.mem_cons, List.mem_singleton, List.not_mem_nil, or_false] at m1 m2 m3 n1 n2 n3
    cases b1 <;> cases b2 <;> cases b3 <;> simp_all [switchOn] <;>
      (rcases m1 with rfl | rfl | rfl <;> rcases m2 with rfl | rfl | rfl <;>
        rcases m3 with rfl | rfl | rfl <;> simp_all)

/-- C7. The line printed by the `switch` of `main`, for every pair of scores:
the allow-list line when `rAllowed > 0.6` and `rNormal < 0.3`; the
network-normal line when `rAllowed > 0.6` and `rNormal > 0.6`; the
unreachable line when `rAllowed < 0.3` and `rNormal < 0.3`; the ambiguous line
in every other case, in particular whenever one of the scores is `0.3` or
`0.6`. The pairs (0.8, 0.1), (0.9, 0.9), (0.1, 0.1) and (0.5, 0.5) give the
four lines in this order. -/
theorem verdict_spec :
    (∀ a n : F64,
      (F64.gt a (F64.lit 6 10) = true ∧ F64.lt n (F64.lit 3 10) = true →
        verdict a n = "Вероятно активен белый список") ∧
      (F64.gt a (F64.lit 6 10) = true ∧ F64.gt n (F64.lit 6 10) = true →
        verdict a n = "Интернет работает нормально") ∧
      (F64.lt a (F64.lit 3 10) = true ∧ F64.lt n (F64.lit 3 10) = true →
        verdict a n = "Интернет почти полностью недоступен") ∧
      (¬(F64.gt a (F64.lit 6 10) = true ∧ F64.lt n (F64.lit 3 10) = true) →
        ¬(F64.gt a (F64.lit 6 10) = true ∧ F64.gt n (F64.lit 6 10) = true) →
        ¬(F64.lt a (F64.lit 3 10) = true ∧ F64.lt n (F64.lit 3 10) = true) →
        verdict a n = "Результат неоднозначен.") ∧
      ((a = F64.lit 3 10 ∨ a = F64.lit 6 10 ∨ n = F64.lit 3 10 ∨ n = F64.lit 6 10) →
        verdict a n = "Результат неоднозначен.")) ∧
    verdict (F64.lit 8 10) (F64.lit 1 10) = "Вероятно активен белый список" ∧
    verdict (F64.lit 9 10) (F64.lit 9 10) = "Интернет работает нормально" ∧
    verdict (F64.lit 1 10) (F64.lit 1 10) = "Интернет почти полностью недоступен" ∧
    verdict (F64.lit 5 10) (F64.lit 5 10) = "Результат неоднозначен." := by
  refine ⟨fun a n => ⟨?_, ?_, ?_, ?_, ?_⟩, by decide, by decide, by decide, by decide⟩
  · rintro ⟨h1, h2⟩
    simp [verdict, verdictCases, switchOn, h1, h2]
  · rintro ⟨h1, h2⟩
    have h3 : F64.lt n (F64.lit 3 10) = false := by
      cases h : F64.lt n (F64.lit 3 10)
      · rfl
      · exact (F64.not_between n h2 h).elim
    simp [verdict, verdictCases, switchOn, h1, h2, h3]
  · rintro ⟨h1, h2⟩
    have h3 : F64.gt a (F64.lit 6 10) = false := by
      cases h : F64.gt a (F64.lit 6 10)
      · rfl
      · exact (F64.not_between a h h1).elim
    simp [verdict, verdictCases, switchOn, h1, h2, h3]
  · intro h1 h2 h3
    simp only [verdict, verdictCases, switchOn]
    simp only [← Bool.and_eq_true] at h1 h2 h3
    simp [h1, h2, h3]
  · intro h
    have e1 : F64.lt (F64.lit 3 10) (F64.lit 3 10) = false := by decide
    have e2 : F64.lt (F64.lit 6 10) (F64.lit 6 10) = false := by decide
    have e3 : F64.lt (F64.lit 6 10) (F64.lit 3 10) = false := by decide
    rcases h with rfl | rfl | rfl | rfl <;>
      simp [verdict, verdictCases, switchOn, F64.gt, e1, e2, e3]

/-- C10. The three conditions of the `switch` of `main` exclude each other
pairwise for every pair of scores, so evaluating the three cases in any
order prints the same line. -/
theorem verdict_cases_exclusive (a n : F64) :
    ¬((F64.gt a (F64.lit 6 10) && F64.lt n (F64.lit 3 10)) = true ∧
      (F64.gt a (F64.lit 6 10) && F64.gt n (F64.lit 6 10)) = true) ∧
    ¬((F64.gt a (F64.lit 6 10) && F64.lt n (F64.lit 3 10)) = true ∧
      (F64.lt a (F64.lit 3 10) && F64.lt n (F64.lit 3 10)) = true) ∧
    ¬((F64.gt a (F64.lit 6 10) && F64.gt n (F64.lit 6 10)) = true ∧
      (F64.lt a (F64.lit 3 10) && F64.lt n (F64.lit 3 10)) = true) ∧
    (∀ cs : List (Bool × String), cs.Perm (verdictCases a n) →
      switchOn cs "Результат неоднозначен." = verdict a n) := by
  have x12 : ¬((F64.gt a (F64.lit 6 10) && F64.lt n (F64.lit 3 10)) = true ∧
      (F64.gt a (F64.lit 6 10) && F64.gt n (F64.lit 6 10)) = true) := by
    simp only [Bool.and_eq_true]
    rintro ⟨⟨_, h1⟩, _, h2⟩
    exact F64.not_between n h2 h1
  have x13 : ¬((F64.gt a (F64.lit 6 10) && F64.lt n (F64.lit 3 10)) = true ∧
      (F64.lt a (F64.lit 3 10) && F64.lt n (F64.lit 3 10)) = true) := by
    simp only [Bool.and_eq_true]
    rintro ⟨⟨h1, _⟩, h2, _⟩
    exact F64.not_between a h1 h2
  have x23 : ¬((F64.gt a (F64.lit 6 10) && F64.gt n (F64.lit 6 10)) = true ∧
      (F64.lt a (F64.lit 3 10) && F64.lt n (F64.lit 3 10)) = true) := by
    simp only [Bool.and_eq_true]
    rintro ⟨⟨h1, _⟩, h2, _⟩
    exact F64.not_between a h1 h2
  refine ⟨x12, x13, x23, ?_⟩
  intro cs hp
  exact switchOn_perm3 _ _ _ _ _ _ _ x12 x13 x23 cs hp

/-! ## Rounding and `score` -/

theorem scoreLoop_eq (rs : List Result) (ok : Int) :
    scoreLoop rs ok = ok + (rs.countP (fun r => r.HTTP) : Nat) := by
  induction rs generalizing ok with
  | nil => simp [scoreLoop]
  | cons r rs ih =>
    cases h : r.HTTP
    · simp [scoreLoop, ih, h, List.countP_cons]
    · simp [scoreLoop, ih, h, List.countP_cons]; ring

theorem ilog2_eq_log (fuel n : Nat) (h : n ≤ fuel) : ilog2 fuel n = Nat.log 2 n := by
  induction fuel generalizing n with
  | zero =>
    have : n = 0 := by omega
    subst this
    simp [ilog2]
  | succ fuel ih =>
    show (if n < 2 then 0 else ilog2 fuel (n / 2) + 1) = Nat.log 2 n
    split
    · rename_i h2
      exact (Nat.log_of_lt h2).symm
    · rename_i h2
      have h3 := @Nat.log_of_one_lt_of_le 2 n (by norm_num) (by omega)
      rw [h3, ih (n / 2) (by omega)]

theorem roundNearestEven_scale (num den c : Nat) (hc : 0 < c) :
    roundNearestEven (num * c) (den * c) = roundNearestEven num den := by
  unfold roundNearestEven
  simp only [Nat.mul_div_mul_right _ _ hc, Nat.mul_mod_mul_right]
  have h1 : (2 * (num % den * c) < den * c) ↔ (2 * (num % den) < den) := by
    rw [← Nat.mul_assoc]; exact Nat.mul_lt_mul_right hc
  have h2 : (den * c < 2 * (num % den * c)) ↔ (den < 2 * (num % den)) := by
    rw [← Nat.mul_assoc]; exact Nat.mul_lt_mul_right hc
  simp only [h1, h2]

theorem roundNearestEven_one (num : Nat) : roundNearestEven num 1 = num := by
  simp [roundNearestEven, Nat.mod_one]

theorem ofInt_small (k : Nat) (hk : k ≠ 0) (hlt : k < 2 ^ 53) :
    F64.ofInt (k : Int) = F64.fin ((k * 2 ^ (52 - Nat.log 2 k) : Nat) : Int)
      ((Nat.log 2 k : Int) - 52) := by
  have hlog : Nat.log 2 k < 53 := Nat.log_lt_of_lt_pow hk hlt
  have hle : 2 ^ Nat.log 2 k ≤ k := Nat.pow_log_le_self 2 hk
  have hexp : ratioExp k 1 = (Nat.log 2 k : Int) := by
    unfold ratioExp
    simp only [ilog2_eq_log _ _ (le_refl _)]
    simp [hle]
  unfold F64.ofInt roundRatio
  have hneg : decide ((k : Int) < 0) = false := by simp
  simp only [hneg, Int.natAbs_ofNat, hk, if_false, hexp]
  have hmax : max (Nat.log 2 k : Int) (-1022) = (Nat.log 2 k : Int) := by omega
  rw [hmax]
  have hs : (52 - (Nat.log 2 k : Int)).toNat = 52 - Nat.log 2 k := by omega
  have hs2 : (-(52 - (Nat.log 2 k : Int))).toNat = 0 := by omega
  rw [hs, hs2]
  simp only [Nat.one_mul, Nat.pow_zero, roundNearestEven_one]
  rw [if_neg (by rintro (h | ⟨h, _⟩) <;> omega)]
  simp

theorem two_zpow_toNat_div (s : Int) :
    ((2 : ℚ) ^ s.toNat) / ((2 : ℚ) ^ (-s).toNat) = (2 : ℚ) ^ s := by
  rcases le_total 0 s with h | h
  · have h1 : (-s).toNat = 0 := by omega
    rw [h1, pow_zero, div_one, ← zpow_natCast, Int.toNat_of_nonneg h]
  · have h1 : s.toNat = 0 := by omega
    have h2 : s = -(((-s).toNat : Nat) : Int) := by
      rw [Int.toNat_of_nonneg (by omega)]; omega
    rw [h1, pow_zero, one_div]
    conv_rhs => rw [h2, zpow_neg, zpow_natCast]

/-- Rounding a quotient of naturals to the nearest integer (ties to even)
moves it by at most one half. -/
theorem round_half (num den : Nat) (hden : 0 < den) :
    |((roundNearestEven num den : Nat) : ℚ) - (num : ℚ) / (den : ℚ)| ≤ 1 / 2 := by
  unfold roundNearestEven
  dsimp only
  have hd : (0 : ℚ) < (den : ℚ) := by exact_mod_cast hden
  have hsplit : (num : ℚ) / den = ((num / den : Nat) : ℚ) + ((num % den : Nat) : ℚ) / den := by
    have h := Nat.div_add_mod num den
    have h2 : (num : ℚ) = (den : ℚ) * ((num / den : Nat) : ℚ) + ((num % den : Nat) : ℚ) := by
      exact_mod_cast h.symm
    field_simp
    linarith
  have hr : num % den < den := Nat.mod_lt _ hden
  have hr0 : (0 : ℚ) ≤ ((num % den : Nat) : ℚ) / den := by positivity
  rw [hsplit]
  generalize num / den = f at *
  generalize num % den = r at *
  have lo : 2 * r < den → ((r : ℚ) / den) < 1 / 2 := by
    intro h
    rw [div_lt_iff₀ hd]
    have : ((2 * r : Nat) : ℚ) < (den : ℚ) := by exact_mod_cast h
    push_cast at this
    linarith
  have hi : den < 2 * r → 1 / 2 < ((r : ℚ) / den) := by
    intro h
    rw [lt_div_iff₀ hd]
    have : ((den : Nat) : ℚ) < ((2 * r : Nat) : ℚ) := by exact_mod_cast h
    push_cast at this
    linarith
  have le1 : ((r : ℚ) / den) < 1 := by
    rw [div_lt_iff₀ hd]
    have : (r : ℚ) < (den : ℚ) := by exact_mod_cast hr
    linarith
  have mid : ¬ 2 * r < den → ¬ den < 2 * r → ((r : ℚ) / den) = 1 / 2 := by
    intro h1 h2
    have h3 : 2 * r = den := by omega
    have : ((2 * r : Nat) : ℚ) = (den : ℚ) := by exact_mod_cast h3
    push_cast at this
    field_simp
    linarith
  rw [abs_le]
  by_cases h1 : 2 * r < den
  · have := lo h1
    simp only [h1, if_true]
    constructor <;> linarith
  · by_cases h2 : den < 2 * r
    · have := hi h2
      simp only [h1, h2, if_false, if_true]
      push_cast
      constructor <;> linarith
    · have := mid h1 h2
      simp only [h1, h2, if_false]
      split
      · constructor <;> linarith
      · push_cast
        constructor <;> linarith

/-- The exponent computed by `ratioExp` is the floor of the binary logarithm
of the ratio. -/
theorem ratioExp_spec (p q : Nat) (hp : p ≠ 0) (hq : q ≠ 0) :
    (2 : ℚ) ^ (ratioExp p q) ≤ (p : ℚ) / q ∧ (p : ℚ) / q < (2 : ℚ) ^ (ratioExp p q + 1) := by
  have hq0 : (0 : ℚ) < q := by exact_mod_cast Nat.pos_of_ne_zero hq
  have hp0 : (0 : ℚ) < p := by exact_mod_cast Nat.pos_of_ne_zero hp
  have hp1 : ((2 : ℚ) ^ (Nat.log 2 p : Int)) ≤ p := by
    rw [zpow_natCast]; exact_mod_cast Nat.pow_log_le_self 2 hp
  have hp2 : (p : ℚ) < (2 : ℚ) ^ ((Nat.log 2 p : Int) + 1) := by
    have h := Nat.lt_pow_succ_log_self (by norm_num : 1 < 2) p
    have h2 : (p : ℚ) < ((2 ^ (Nat.log 2 p).succ : Nat) : ℚ) := by exact_mod_cast h
    have h3 : ((Nat.log 2 p : Int) + 1) = (((Nat.log 2 p).succ : Nat) : Int) := by push_cast; ring
    rw [h3, zpow_natCast]
    exact_mod_cast h2
  have hq1 : ((2 : ℚ) ^ (Nat.log 2 q : Int)) ≤ q := by
    rw [zpow_natCast]; exact_mod_cast Nat.pow_log_le_self 2 hq
  have hq2 : (q : ℚ) < (2 : ℚ) ^ ((Nat.log 2 q : Int) + 1) := by
    have h := Nat.lt_pow_succ_log_self (by norm_num : 1 < 2) q
    have h2 : (q : ℚ) < ((2 ^ (Nat.log 2 q).succ : Nat) : ℚ) := by exact_mod_cast h
    have h3 : ((Nat.log 2 q : Int) + 1) = (((Nat.log 2 q).succ : Nat) : Int) := by push_cast; ring
    rw [h3, zpow_natCast]
    exact_mod_cast h2
  have h20 : (2 : ℚ) ≠ 0 := by norm_num
  unfold ratioExp
  simp only [ilog2_eq_log _ _ (le_refl _)]
  generalize hd : (Nat.log 2 p : Int) - (Nat.log 2 q : Int) = d
  -- the test compares `2 ^ d` with `p / q`
  have htest : (q * 2 ^ d.toNat ≤ p * 2 ^ (-d).toNat) ↔ (2 : ℚ) ^ d ≤ (p : ℚ) / q := by
    rw [← two_zpow_toNat_div d, le_div_iff₀ hq0, div_mul_eq_mul_div,
      div_le_iff₀ (by positivity)]
    constructor
    · intro h
      have : ((q * 2 ^ d.toNat : Nat) : ℚ) ≤ ((p * 2 ^ (-d).toNat : Nat) : ℚ) := by
        exact_mod_cast h
      push_cast at this
      linarith
    · intro h
      have : ((q * 2 ^ d.toNat : Nat) : ℚ) ≤ ((p * 2 ^ (-d).toNat : Nat) : ℚ) := by
        push_cast
        linarith
      exact_mod_cast this
  -- bounds from the two logarithms
  have hup : (p : ℚ) / q < (2 : ℚ) ^ (d + 1) := by
    rw [div_lt_iff₀ hq0]
    have e1 : (2 : ℚ) ^ (d + 1) * (2 : ℚ) ^ (Nat.log 2 q : Int)
        = (2 : ℚ) ^ ((Nat.log 2 p : Int) + 1) := by
      rw [← zpow_add₀ h20]; congr 1; omega
    have hpos : (0 : ℚ) < (2 : ℚ) ^ (d + 1) := by positivity
    calc (p : ℚ) < (2 : ℚ) ^ ((Nat.log 2 p : Int) + 1) := hp2
      _ = (2 : ℚ) ^ (d + 1) * (2 : ℚ) ^ (Nat.log 2 q : Int) := e1.symm
      _ ≤ (2 : ℚ) ^ (d + 1) * q := by
        exact mul_le_mul_of_nonneg_left hq1 (le_of_lt hpos)
  have hlo : (2 : ℚ) ^ (d - 1) ≤ (p : ℚ) / q := by
    rw [le_div_iff₀ hq0]
    have e1 : (2 : ℚ) ^ (d - 1) * (2 : ℚ) ^ ((Nat.log 2 q : Int) + 1)
        = (2 : ℚ) ^ (Nat.log 2 p : Int) := by
      rw [← zpow_add₀ h20]; congr 1; omega
    have hpos : (0 : ℚ) < (2 : ℚ) ^ (d - 1) := by positivity
    calc (2 : ℚ) ^ (d - 1) * q ≤ (2 : ℚ) ^ (d - 1) * (2 : ℚ) ^ ((Nat.log 2 q : Int) + 1) := by
          exact mul_le_mul_of_nonneg_left (le_of_lt hq2) (le_of_lt hpos)
      _ = (2 : ℚ) ^ (Nat.log 2 p : Int) := e1
      _ ≤ p := hp1
  by_cases ht : q * 2 ^ d.toNat ≤ p * 2 ^ (-d).toNat
  · simp only [ht, if_true]
    exact ⟨htest.1 ht, hup⟩
  · simp only [ht, if_false]
    refine ⟨hlo, ?_⟩
    have : ¬ (2 : ℚ) ^ d ≤ (p : ℚ) / q := fun h => ht (htest.2 h)
    have e2 : d - 1 + 1 = d := by omega
    rw [e2]
    exact lt_of_not_le this

/-- The value `roundRatio` returns: a multiple of `2 ^ (e - 52)` at distance
at most `2 ^ (e - 53)` from the ratio, where `e` is the binary exponent of
the ratio, in the normal range. -/
theorem roundRatio_near (p q : Nat) (hp : p ≠ 0) (hq : q ≠ 0)
    (hlo : -1022 ≤ ratioExp p q) (hhi : ratioExp p q < 1023) :
    ∃ m : Nat, roundRatio false p q = F64.fin (m : Int) (ratioExp p q - 52) ∧
      |(m : ℚ) * (2 : ℚ) ^ (ratioExp p q - 52) - (p : ℚ) / q| ≤ (2 : ℚ) ^ (ratioExp p q - 53) := by
  have hq0 : (0 : ℚ) < q := by exact_mod_cast Nat.pos_of_ne_zero hq
  have h20 : (2 : ℚ) ≠ 0 := by norm_num
  have hmax : max (ratioExp p q) (-1022) = ratioExp p q := max_eq_left hlo
  unfold roundRatio
  simp only [hp, if_false, hmax]
  generalize ratioExp p q = e at hlo hhi
  rw [if_neg (by rintro (h | ⟨h, _⟩) <;> omega)]
  refine ⟨roundNearestEven (p * 2 ^ (52 - e).toNat) (q * 2 ^ (-(52 - e)).toNat),
    by simp only [Bool.false_eq_true, if_false], ?_⟩
  have hden : 0 < q * 2 ^ (-(52 - e)).toNat := by positivity
  have hr := round_half (p * 2 ^ (52 - e).toNat) (q * 2 ^ (-(52 - e)).toNat) hden
  have hscale : (((p * 2 ^ (52 - e).toNat : Nat) : ℚ)) / ((q * 2 ^ (-(52 - e)).toNat : Nat) : ℚ)
      = (p : ℚ) / q * (2 : ℚ) ^ (52 - e) := by
    push_cast
    rw [mul_div_mul_comm, two_zpow_toNat_div]
  rw [hscale] at hr
  generalize roundNearestEven (p * 2 ^ (52 - e).toNat) (q * 2 ^ (-(52 - e)).toNat) = m at hr ⊢
  have hpos : (0 : ℚ) < (2 : ℚ) ^ (e - 52) := by positivity
  have e1 : (2 : ℚ) ^ (52 - e) * (2 : ℚ) ^ (e - 52) = 1 := by
    rw [← zpow_add₀ h20]
    have : 52 - e + (e - 52) = 0 := by omega
    rw [this, zpow_zero]
  have e2 : (2 : ℚ) ^ (e - 53) = 1 / 2 * (2 : ℚ) ^ (e - 52) := by
    have : e - 52 = (e - 53) + 1 := by omega
    rw [this, zpow_add₀ h20, zpow_one]
    ring
  have e3 : (m : ℚ) * (2 : ℚ) ^ (e - 52) - (p : ℚ) / q
      = ((m : ℚ) - (p : ℚ) / q * (2 : ℚ) ^ (52 - e)) * (2 : ℚ) ^ (e - 52) := by
    rw [sub_mul, mul_assoc, e1, mul_one]
  rw [e3, abs_mul, abs_of_pos hpos, e2]
  exact mul_le_mul_of_nonneg_right hr (le_of_lt hpos)

/-- The `float64` constant of a ratio `k / n` with `0 < k ≤ n < 2 ^ 53` is
finite and within relative error `2 ^ (-53)` of the ratio. -/
theorem lit_near (k n : Nat) (hk : k ≠ 0) (hkn : k ≤ n) (hn : n < 2 ^ 53) :
    ∃ v : ℚ, (F64.lit k n).toRat = some v ∧
      |v - (k : ℚ) / n| ≤ (k : ℚ) / n * (2 : ℚ) ^ (-53 : Int) := by
  have hn0 : n ≠ 0 := by omega
  have hq0 : (0 : ℚ) < n := by exact_mod_cast Nat.pos_of_ne_zero hn0
  have hk0 : (0 : ℚ) < k := by exact_mod_cast Nat.pos_of_ne_zero hk
  have h20 : (2 : ℚ) ≠ 0 := by norm_num
  obtain ⟨s1, s2⟩ := ratioExp_spec k n hk hn0
  have hx1 : (k : ℚ) / n ≤ 1 := by
    rw [div_le_one hq0]
    exact_mod_cast hkn
  have hx2 : (2 : ℚ) ^ (-53 : Int) < (k : ℚ) / n := by
    rw [lt_div_iff₀ hq0]
    have h1 : (n : ℚ) < (2 : ℚ) ^ (53 : Nat) := by exact_mod_cast hn
    have h2 : (1 : ℚ) ≤ k := by exact_mod_cast Nat.pos_of_ne_zero hk
    have h3 : (2 : ℚ) ^ (-53 : Int) * (2 : ℚ) ^ (53 : Nat) = 1 := by norm_num
    have hpos : (0 : ℚ) < (2 : ℚ) ^ (-53 : Int) := by positivity
    calc (2 : ℚ) ^ (-53 : Int) * n < (2 : ℚ) ^ (-53 : Int) * (2 : ℚ) ^ (53 : Nat) :=
          mul_lt_mul_of_pos_left h1 hpos
      _ = 1 := h3
      _ ≤ k := h2
  have hhi : ratioExp k n ≤ 0 := by
    have h : (2 : ℚ) ^ (ratioExp k n) ≤ (2 : ℚ) ^ (0 : Int) := by
      rw [zpow_zero]; exact le_trans s1 hx1
    exact (zpow_le_zpow_iff_right₀ (by norm_num : (1 : ℚ) < 2)).1 h
  have hlo : -53 < ratioExp k n + 1 := by
    have h : (2 : ℚ) ^ (-53 : Int) < (2 : ℚ) ^ (ratioExp k n + 1) := lt_trans hx2 s2
    exact (zpow_lt_zpow_iff_right₀ (by norm_num : (1 : ℚ) < 2)).1 h
  obtain ⟨m, hm, hnear⟩ := roundRatio_near k n hk hn0 (by omega) (by omega)
  refine ⟨(m : ℚ) * (2 : ℚ) ^ (ratioExp k n - 52), ?_, ?_⟩
  · rw [F64.lit, hm]
    simp [F64.toRat]
  · refine le_trans hnear ?_
    have e1 : (2 : ℚ) ^ (ratioExp k n - 53) = (2 : ℚ) ^ (ratioExp k n) * (2 : ℚ) ^ (-53 : Int) := by
      rw [← zpow_add₀ h20]; congr 1
    rw [e1]
    exact mul_le_mul_of_nonneg_right s1 (by positivity)

/-- The exponent computed by `ratioExp` depends on the ratio only. -/
theorem ratioExp_congr (p q p2 q2 : Nat) (hp : p ≠ 0) (hq : q ≠ 0) (hp2 : p2 ≠ 0)
    (hq2 : q2 ≠ 0) (h : p * q2 = p2 * q) : ratioExp p q = ratioExp p2 q2 := by
  have hq0 : (q : ℚ) ≠ 0 := by exact_mod_cast hq
  have hq20 : (q2 : ℚ) ≠ 0 := by exact_mod_cast hq2
  have hx : (p : ℚ) / q = (p2 : ℚ) / q2 := by
    rw [div_eq_div_iff hq0 hq20]
    exact_mod_cast h
  obtain ⟨a1, a2⟩ := ratioExp_spec p q hp hq
  obtain ⟨b1, b2⟩ := ratioExp_spec p2 q2 hp2 hq2
  rw [hx] at a1 a2
  have h1 : ratioExp p q < ratioExp p2 q2 + 1 :=
    (zpow_lt_zpow_iff_right₀ (by norm_num : (1 : ℚ) < 2)).1 (lt_of_le_of_lt a1 b2)
  have h2 : ratioExp p2 q2 < ratioExp p q + 1 :=
    (zpow_lt_zpow_iff_right₀ (by norm_num : (1 : ℚ) < 2)).1 (lt_of_le_of_lt b1 a2)
  omega

theorem roundRatio_scale_any (neg : Bool) (p q c : Nat) (hq : q ≠ 0) (hc : c ≠ 0) :
    roundRatio neg (p * c) (q * c) = roundRatio neg p q := by
  by_cases hp : p = 0
  · subst hp; simp [roundRatio]
  have hc0 : 0 < c := Nat.pos_of_ne_zero hc
  have hp2 : p * c ≠ 0 := Nat.mul_ne_zero hp hc
  have hq2 : q * c ≠ 0 := Nat.mul_ne_zero hq hc
  have hexp : ratioExp (p * c) (q * c) = ratioExp p q :=
    ratioExp_congr _ _ _ _ hp2 hq2 hp hq (by ring)
  unfold roundRatio
  simp only [hp, hp2, if_false, hexp]
  generalize max (ratioExp p q) (-1022) = e
  have hnum : p * c * 2 ^ (52 - e).toNat = p * 2 ^ (52 - e).toNat * c :=
    Nat.mul_right_comm _ _ _
  have hden : q * c * 2 ^ (-(52 - e)).toNat = q * 2 ^ (-(52 - e)).toNat * c :=
    Nat.mul_right_comm _ _ _
  rw [hnum, hden, roundNearestEven_scale _ _ _ hc0]

/-- The `float64` value of a constant depends on the ratio only: `3 / 5` and
`6 / 10` denote the same `float64`. -/
theorem lit_congr (p q p2 q2 : Nat) (hq : q ≠ 0) (hq2 : q2 ≠ 0) (h : p * q2 = p2 * q) :
    F64.lit p q = F64.lit p2 q2 := by
  unfold F64.lit
  rw [← roundRatio_scale_any false p q q2 hq hq2, ← roundRatio_scale_any false p2 q2 q hq2 hq,
    h, Nat.mul_comm q q2]

theorem div_ofInt_small (k n : Nat) (hn : n ≠ 0) (hk : k < 2 ^ 53) (hlt : n < 2 ^ 53) :
    F64.div (F64.ofInt (k : Int)) (F64.ofInt (n : Int)) = roundRatio false k n := by
  have hln : Nat.log 2 n < 53 := Nat.log_lt_of_lt_pow hn hlt
  have hm2 : ((n * 2 ^ (52 - Nat.log 2 n) : Nat) : Int) ≠ 0 := by
    have : n * 2 ^ (52 - Nat.log 2 n) ≠ 0 := by positivity
    exact_mod_cast this
  rw [ofInt_small n hn hlt]
  by_cases hk0 : k = 0
  · subst hk0
    have h0 : F64.ofInt ((0 : Nat) : Int) = F64.fin 0 0 := by decide
    rw [h0]
    simp [F64.div, hn, roundRatio]
  · have hlk : Nat.log 2 k < 53 := Nat.log_lt_of_lt_pow hk0 hk
    rw [ofInt_small k hk0 hk]
    simp only [F64.div, hm2, if_false]
    have hs1 : decide (((k * 2 ^ (52 - Nat.log 2 k) : Nat) : Int) < 0) = false := by
      simp only [decide_eq_false_iff_not, not_lt]; exact Int.natCast_nonneg _
    have hs2 : decide (((n * 2 ^ (52 - Nat.log 2 n) : Nat) : Int) < 0) = false := by
      simp only [decide_eq_false_iff_not, not_lt]; exact Int.natCast_nonneg _
    rw [hs1, hs2, Int.natAbs_ofNat, Int.natAbs_ofNat]
    have he1 : (((Nat.log 2 k : Int) - 52) - min ((Nat.log 2 k : Int) - 52)
        ((Nat.log 2 n : Int) - 52)).toNat = Nat.log 2 k - min (Nat.log 2 k) (Nat.log 2 n) := by
      omega
    have he2 : (((Nat.log 2 n : Int) - 52) - min ((Nat.log 2 k : Int) - 52)
        ((Nat.log 2 n : Int) - 52)).toNat = Nat.log 2 n - min (Nat.log 2 k) (Nat.log 2 n) := by
      omega
    rw [he1, he2, Nat.mul_assoc, Nat.mul_assoc, ← pow_add, ← pow_add]
    have ha : 52 - Nat.log 2 k + (Nat.log 2 k - min (Nat.log 2 k) (Nat.log 2 n))
        = 52 - min (Nat.log 2 k) (Nat.log 2 n) := by omega
    have hb : 52 - Nat.log 2 n + (Nat.log 2 n - min (Nat.log 2 k) (Nat.log 2 n))
        = 52 - min (Nat.log 2 k) (Nat.log 2 n) := by omega
    rw [ha, hb]
    exact roundRatio_scale_any _ k n _ hn (by positivity)

/-- C6. `score` of the empty list is 0. For a non-empty list with `k` of its
`n` results having HTTP true, `score` is the `float64` quotient
`float64(k) / float64(n)`; for `n < 2 ^ 53` (every slice a Go program can
hold) this is the `float64` value of the exact ratio `k / n`, the one a
constant `k / n` denotes, however the ratio is written: zero when `k = 0`,
otherwise within relative error `2 ^ (-53)` of the ratio. With 3 of 5 it is
the `float64` constant `0.6`. -/
theorem score_spec :
    score [] = F64.fin 0 0 ∧
    (∀ rs : List Result, rs ≠ [] →
      score rs = F64.div (F64.ofInt ((rs.countP (fun r => r.HTTP) : Nat) : Int))
        (F64.ofInt ((rs.length : Nat) : Int))) ∧
    (∀ rs : List Result, rs ≠ [] → rs.length < 2 ^ 53 →
      score rs = F64.lit (rs.countP (fun r => r.HTTP)) rs.length) ∧
    (∀ rs : List Result, rs ≠ [] → rs.length < 2 ^ 53 →
      ∀ p q : Nat, q ≠ 0 → p * rs.length = rs.countP (fun r => r.HTTP) * q →
        score rs = F64.lit p q) ∧
    (∀ rs : List Result, rs ≠ [] → rs.length < 2 ^ 53 → rs.countP (fun r => r.HTTP) = 0 →
      score rs = F64.fin 0 0) ∧
    (∀ rs : List Result, rs.length < 2 ^ 53 → rs.countP (fun r => r.HTTP) ≠ 0 →
      ∃ v : ℚ, (score rs).toRat = some v ∧
        |v - (rs.countP (fun r => r.HTTP) : ℚ) / (rs.length : ℚ)| ≤
          (rs.countP (fun r => r.HTTP) : ℚ) / (rs.length : ℚ) * (2 : ℚ) ^ (-53 : Int)) ∧
    (∀ rs : List Result, rs.length = 5 → rs.countP (fun r => r.HTTP) = 3 →
      score rs = F64.lit 6 10 ∧ F64.eq (score rs) (F64.lit 6 10) = true) := by
  have hdiv : ∀ rs : List Result, rs ≠ [] →
      score rs = F64.div (F64.ofInt ((rs.countP (fun r => r.HTTP) : Nat) : Int))
        (F64.ofInt ((rs.length : Nat) : Int)) := by
    intro rs hrs
    have hlen : rs.length ≠ 0 := by simpa using hrs
    simp [score, hlen, scoreLoop_eq]
  have hlit : ∀ rs : List Result, rs ≠ [] → rs.length < 2 ^ 53 →
      score rs = F64.lit (rs.countP (fun r => r.HTTP)) rs.length := by
    intro rs hrs hlt
    have hlen : rs.length ≠ 0 := by simpa using hrs
    rw [hdiv rs hrs, F64.lit]
    exact div_ofInt_small _ _ hlen (lt_of_le_of_lt (List.countP_le_length _) hlt) hlt
  have hany : ∀ rs : List Result, rs ≠ [] → rs.length < 2 ^ 53 →
      ∀ p q : Nat, q ≠ 0 → p * rs.length = rs.countP (fun r => r.HTTP) * q →
        score rs = F64.lit p q := by
    intro rs hrs hlt p q hq hpq
    have hlen : rs.length ≠ 0 := by simpa using hrs
    rw [hlit rs hrs hlt]
    exact lit_congr _ _ _ _ hlen hq hpq.symm
  refine ⟨by decide, hdiv, hlit, hany, ?_, ?_, ?_⟩
  · intro rs hrs hlt h0
    rw [hlit rs hrs hlt, h0]
    simp [F64.lit, roundRatio]
  · intro rs hlt hk
    have hne : rs ≠ [] := by
      intro h; subst h; simp at hk
    rw [hlit rs hne hlt]
    exact lit_near _ _ hk (List.countP_le_length _) hlt
  · intro rs h5 h3
    have hne : rs ≠ [] := by
      intro h; subst h; simp at h5
    have h := hany rs hne (by rw [h5]; norm_num) 6 10 (by norm_num) (by rw [h5, h3])
    rw [h]
    exact ⟨rfl, by decide⟩

/-- Witness of C6: three reachable hosts out of five. -/
theorem score_spec_witness :
    score [check Net.up "ya.ru", check Net.down "t.me", check Net.up "vk.com",
      check Net.down "github.com", check Net.up "mail.ru"] = F64.lit 6 10 :=
  (score_spec.2.2.2.2.2.2 _ (by decide) (by decide)).1

/-! ## The transition system of `run` -/

theorem countP_set_of_getElem? {α : Type} (p : α → Bool) (l : List α) (j : Nat) (a b : α)
    (h : l[j]? = some a) :
    (l.set j b).countP p + (if p a then 1 else 0) = l.countP p + (if p b then 1 else 0) := by
  induction l generalizing j with
  | nil => simp at h
  | cons x xs ih =>
    cases j with
    | zero =>
      simp only [List.getElem?_cons_zero, Option.some.injEq] at h
      subst h
      simp only [List.set_cons_zero, List.countP_cons]
      omega
    | succ j =>
      simp only [List.getElem?_cons_succ] at h
      have := ih j h
      simp only [List.set_cons_succ, List.countP_cons]
      omega

theorem sum_map_set_of_getElem? {α : Type} (f : α → Nat) (l : List α) (j : Nat) (a b : α)
    (h : l[j]? = some a) :
    ((l.set j b).map f).sum + f a = (l.map f).sum + f b := by
  induction l generalizing j with
  | nil => simp at h
  | cons x xs ih =>
    cases j with
    | zero =>
      simp only [List.getElem?_cons_zero, Option.some.injEq] at h
      subst h
      simp only [List.set_cons_zero, List.map_cons, List.sum_cons]
      omega
    | succ j =>
      simp only [List.getElem?_cons_succ] at h
      have := ih j h
      simp only [List.set_cons_succ, List.map_cons, List.sum_cons]
      omega

/-- What an enabled step of the goroutine executing `run` does. -/
theorem stepMain_some {c : Config} {s s1 : State} (h : stepMain c s = some s1) :
    (∃ i, s.main = MainPc.loop i ∧ i < c.sites.length ∧ s.sem < c.W ∧
      s1 = { s with sem := s.sem + 1, main := MainPc.spawn i }) ∨
    (∃ i, s.main = MainPc.loop i ∧ ¬ i < c.sites.length ∧
      s1 = { s with main := MainPc.startConsumer }) ∨
    (∃ i h, s.main = MainPc.spawn i ∧ c.sites[i]? = some h ∧
      s1 = { s with workers := s.workers ++ [{ i := i, host := h, pc := WorkerPc.call }],
                    main := MainPc.loop (i + 1) }) ∨
    (s.main = MainPc.startConsumer ∧
      s1 = { s with consumer := ConsumerPc.recv, main := MainPc.wait }) ∨
    (s.main = MainPc.wait ∧ s.wg = 0 ∧ s1 = { s with main := MainPc.close }) ∨
    (s.main = MainPc.close ∧ s1 = { s with closed := true, main := MainPc.returned }) := by
  unfold stepMain at h
  split at h
  · rename_i i hm
    split at h
    · split at h
      · simp only [Option.some.injEq] at h
        exact Or.inl ⟨i, hm, by assumption, by assumption, h.symm⟩
      · simp at h
    · simp only [Option.some.injEq] at h
      exact Or.inr (Or.inl ⟨i, hm, by assumption, h.symm⟩)
  · rename_i i hm
    split at h
    · rename_i hh hs
      simp only [Option.some.injEq] at h
      exact Or.inr (Or.inr (Or.inl ⟨i, hh, hm, hs, h.symm⟩))
    · simp at h
  · rename_i hm
    simp only [Option.some.injEq] at h
    exact Or.inr (Or.inr (Or.inr (Or.inl ⟨hm, h.symm⟩)))
  · rename_i hm
    split at h
    · simp only [Option.some.injEq] at h
      exact Or.inr (Or.inr (Or.inr (Or.inr (Or.inl ⟨hm, by assumption, h.symm⟩))))
    · simp at h
  · rename_i hm
    simp only [Option.some.injEq] at h
    exact Or.inr (Or.inr (Or.inr (Or.inr (Or.inr ⟨hm, h.symm⟩))))
  · simp at h

/-- What an enabled step of a worker does. -/
theorem stepWorker_some {c : Config} {j : Nat} {s s1 : State} (h : stepWorker c j s = some s1) :
    ∃ w, s.workers[j]? = some w ∧
    ((w.pc = WorkerPc.call ∧
      s1 = { s with
        workers := s.workers.set j { w with pc := WorkerPc.store (check (c.net w.i) w.host) } }) ∨
    (∃ r, w.pc = WorkerPc.store r ∧ w.i < s.out.length ∧
      s1 = { s with out := s.out.set w.i r, writes := s.writes ++ [(w.i, j)],
                    workers := s.workers.set j { w with pc := WorkerPc.send } }) ∨
    (w.pc = WorkerPc.send ∧ s.closed = false ∧ s.progress < c.sites.length ∧
      s1 = { s with progress := s.progress + 1, sent := s.sent + 1,
                    workers := s.workers.set j { w with pc := WorkerPc.release } }) ∨
    (w.pc = WorkerPc.release ∧ 0 < s.sem ∧
      s1 = { s with sem := s.sem - 1,
                    workers := s.workers.set j { w with pc := WorkerPc.done } }) ∨
    (w.pc = WorkerPc.done ∧ 0 < s.wg ∧
      s1 = { s with wg := s.wg - 1,
                    workers := s.workers.set j { w with pc := WorkerPc.exited } })) := by
  unfold stepWorker at h
  split at h
  · simp at h
  · rename_i w hw
    refine ⟨w, hw, ?_⟩
    split at h
    · rename_i hpc
      simp only [Option.some.injEq] at h
      exact Or.inl ⟨hpc, h.symm⟩
    · rename_i r hpc
      split at h
      · simp only [Option.some.injEq] at h
        exact Or.inr (Or.inl ⟨r, hpc, by assumption, h.symm⟩)
      · simp at h
    · rename_i hpc
      split at h
      · rename_i hg
        simp only [Option.some.injEq] at h
        exact Or.inr (Or.inr (Or.inl ⟨hpc, hg.1, hg.2, h.symm⟩))
      · simp at h
    · rename_i hpc
      split at h
      · simp only [Option.some.injEq] at h
        exact Or.inr (Or.inr (Or.inr (Or.inl ⟨hpc, by assumption, h.symm⟩)))
      · simp at h
    · rename_i hpc
      split at h
      · simp only [Option.some.injEq] at h
        exact Or.inr (Or.inr (Or.inr (Or.inr ⟨hpc, by assumption, h.symm⟩)))
      · simp at h
    · simp at h

/-- What an enabled step of the progress consumer does. -/
theorem stepConsumer_some {s s1 : State} (h : stepConsumer s = some s1) :
    (s.consumer = ConsumerPc.recv ∧ 0 < s.progress ∧
      s1 = { s with progress := s.progress - 1, consumer := ConsumerPc.add }) ∨
    (s.consumer = ConsumerPc.recv ∧ s.progress = 0 ∧ s.closed = true ∧
      s1 = { s with consumer := ConsumerPc.exited }) ∨
    (s.consumer = ConsumerPc.add ∧
      s1 = { s with bar := s.bar + 1, consumer := ConsumerPc.recv }) := by
  unfold stepConsumer at h
  split at h
  · simp at h
  · rename_i hc
    split at h
    · simp only [Option.some.injEq] at h
      exact Or.inl ⟨hc, by assumption, h.symm⟩
    · split at h
      · simp only [Option.some.injEq] at h
        exact Or.inr (Or.inl ⟨hc, by omega, by assumption, h.symm⟩)
      · simp at h
  · rename_i hc
    simp only [Option.some.injEq] at h
    exact Or.inr (Or.inr ⟨hc, h.symm⟩)
  · simp at h

theorem getElem?_set_some {α : Type} {ws : List α} {j k : Nat} {wn x : α}
    (h : (ws.set j wn)[k]? = some x) :
    (k = j ∧ x = wn) ∨ (k ≠ j ∧ ws[k]? = some x) := by
  rw [List.getElem?_set] at h
  split at h
  · rename_i hjk
    subst hjk
    split at h
    · simp only [Option.some.injEq] at h
      exact Or.inl ⟨rfl, h.symm⟩
    · simp at h
  · rename_i hjk
    exact Or.inr ⟨fun e => hjk e.symm, h⟩

theorem getElem?_concat_some {α : Type} {ws : List α} {k : Nat} {wn x : α}
    (h : (ws ++ [wn])[k]? = some x) :
    (k = ws.length ∧ x = wn) ∨ (k < ws.length ∧ ws[k]? = some x) := by
  rw [List.getElem?_append] at h
  split at h
  · exact Or.inr ⟨by assumption, h⟩
  · rename_i hk
    have hk2 : k - ws.length = 0 := by
      by_contra hne
      have : ([wn] : List α)[k - ws.length]? = none := by
        apply List.getElem?_eq_none
        simp only [List.length_singleton]
        omega
      rw [this] at h
      simp at h
    rw [hk2] at h
    simp only [List.getElem?_cons_zero, Option.some.injEq] at h
    exact Or.inl ⟨by omega, h.symm⟩

theorem Inv.workers_le {c : Config} {s : State} (inv : Inv c s) :
    s.workers.length ≤ c.sites.length := by
  by_contra hlt
  have hlt2 : c.sites.length < s.workers.length := by omega
  have h1 := (inv.wk c.sites.length s.workers[c.sites.length]
    (List.getElem?_eq_getElem hlt2)).2
  have h2 : c.sites[c.sites.length]? = none := List.getElem?_eq_none (le_refl _)
  rw [h2] at h1
  simp at h1

theorem storedAt_eq {s : State} {k : Nat} {w : Worker} (h : s.workers[k]? = some w) :
    s.storedAt k = w.pc.stored := by
  simp [State.storedAt, h]

theorem Inv.init (c : Config) : Inv c (State.init c) := by
  refine ⟨?_, ?_, ?_, ?_, ?_, ?_, ?_, ?_, ?_, ?_, ?_, ?_, ?_, ?_, ?_, ?_⟩ <;>
    simp [State.init, State.holders, MainPc.pending, MainPc.spawned, ConsumerPc.pending,
      MainPc.started, State.writersOf, State.storedAt]

theorem Inv.preserved_main {c : Config} {s s1 : State} (inv : Inv c s) (h : stepMain c s = some s1) :
    Inv c s1 := by
  have hle := inv.workers_le
  obtain ⟨out_len, wk, main_len, spawn_lt, sem_eq, sem_le, wg_eq, sent_eq, prog_eq, closed_ret,
    late_wg, cons_exit, cons_ns, cons_started, stored_ok, writes_ok⟩ := inv
  rcases stepMain_some h with ⟨i, hm, hi, hsem, rfl⟩ | ⟨i, hm, hi, rfl⟩ | ⟨i, hh, hm, hs, rfl⟩ |
    ⟨hm, rfl⟩ | ⟨hm, hwg, rfl⟩ | ⟨hm, rfl⟩
  · -- send on `sem`
    refine ⟨out_len, wk, ?_, ?_, ?_, ?_, wg_eq, sent_eq, prog_eq, ?_, ?_, cons_exit, cons_ns,
      ?_, stored_ok, writes_ok⟩
    · simpa [MainPc.spawned, hm] using main_len
    · intro i2 h2
      simp only [MainPc.spawn.injEq] at h2
      omega
    · simp only [State.holders, MainPc.pending, hm] at sem_eq ⊢
      omega
    · show s.sem + 1 ≤ c.W
      omega
    · intro hc
      have := closed_ret hc
      rw [hm] at this
      cases this
    · intro h2
      simp at h2
    · intro _
      exact cons_started (by simp [hm, MainPc.started])
  · -- end of the loop
    refine ⟨out_len, wk, ?_, ?_, ?_, sem_le, wg_eq, sent_eq, prog_eq, ?_, ?_, cons_exit, cons_ns,
      ?_, stored_ok, writes_ok⟩
    · simp only [MainPc.spawned, hm] at main_len ⊢
      omega
    · intro i2 h2
      simp at h2
    · simpa [State.holders, MainPc.pending, hm] using sem_eq
    · intro hc
      have := closed_ret hc
      rw [hm] at this
      cases this
    · intro h2
      simp at h2
    · intro _
      exact cons_started (by simp [hm, MainPc.started])
  · -- `go func(i, s)`
    have hlen : s.workers.length = i := by simpa [MainPc.spawned, hm] using main_len
    refine ⟨out_len, ?_, ?_, ?_, ?_, sem_le, ?_, ?_, prog_eq, ?_, ?_, cons_exit, cons_ns,
      ?_, ?_, ?_⟩
    · intro k x hx
      rcases getElem?_concat_some hx with ⟨hk, rfl⟩ | ⟨_, hk⟩
      · exact ⟨by simp [hk, hlen], by simp [hk, hlen, hs]⟩
      · exact wk k x hk
    · simp [MainPc.spawned, hlen]
    · intro i2 h2
      simp at h2
    · simp only [State.holders, MainPc.pending, hm, List.countP_append, List.countP_singleton,
        WorkerPc.holds] at sem_eq ⊢
      simpa using sem_eq
    · simpa [WorkerPc.isExited] using wg_eq
    · simpa [WorkerPc.hasSent] using sent_eq
    · intro hc
      have := closed_ret hc
      rw [hm] at this
      cases this
    · intro h2
      simp at h2
    · intro _
      exact cons_started (by simp [hm, MainPc.started])
    · intro k x hx
      rcases getElem?_concat_some hx with ⟨hk, rfl⟩ | ⟨_, hk⟩
      · simp [WorkerPc.stored]
      · exact stored_ok k x hk
    · intro k
      have hst : State.storedAt { s with
          workers := s.workers ++ [{ i := i, host := hh, pc := WorkerPc.call }],
          main := MainPc.loop (i + 1) } k = s.storedAt k := by
        by_cases hk : k < s.workers.length
        · simp [State.storedAt, List.getElem?_append_left hk]
        · have hk2 : s.workers[k]? = none := List.getElem?_eq_none (by omega)
          by_cases hk3 : k = s.workers.length
          · subst hk3
            simp [State.storedAt, WorkerPc.stored]
          · have hk4 : (s.workers ++ [({ i := i, host := hh, pc := WorkerPc.call } : Worker)])[k]?
                = none := by
              apply List.getElem?_eq_none
              simp only [List.length_append, List.length_singleton]
              omega
            simp [State.storedAt, hk2, hk4]
      rw [hst, ← writes_ok k]
      rfl
  · -- the consumer is started
    refine ⟨out_len, wk, ?_, ?_, ?_, sem_le, wg_eq, sent_eq, ?_, ?_, ?_, ?_, ?_,
      ?_, stored_ok, writes_ok⟩
    · simpa [MainPc.spawned, hm] using main_len
    · intro i2 h2
      simp at h2
    · simpa [State.holders, MainPc.pending, hm] using sem_eq
    · have hns := cons_started (by simp [hm, MainPc.started])
      simpa [hns, ConsumerPc.pending] using prog_eq
    · intro hc
      have := closed_ret hc
      rw [hm] at this
      cases this
    · intro h2
      simp at h2
    · intro h2
      simp at h2
    · intro h2
      simp at h2
    · intro h2
      simp [MainPc.started] at h2
  · -- `wg.Wait()` returns
    refine ⟨out_len, wk, ?_, ?_, ?_, sem_le, wg_eq, sent_eq, prog_eq, ?_, ?_, cons_exit, cons_ns,
      ?_, stored_ok, writes_ok⟩
    · simpa [MainPc.spawned, hm] using main_len
    · intro i2 h2
      simp at h2
    · simpa [State.holders, MainPc.pending, hm] using sem_eq
    · intro hc
      have := closed_ret hc
      rw [hm] at this
      cases this
    · intro _
      exact hwg
    · intro h2
      simp [MainPc.started] at h2
  · -- `close(progressChan)`
    refine ⟨out_len, wk, ?_, ?_, ?_, sem_le, wg_eq, sent_eq, prog_eq, ?_, ?_, ?_, cons_ns,
      ?_, stored_ok, writes_ok⟩
    · simpa [MainPc.spawned, hm] using main_len
    · intro i2 h2
      simp at h2
    · simpa [State.holders, MainPc.pending, hm] using sem_eq
    · intro _
      rfl
    · intro _
      exact late_wg (Or.inl hm)
    · intro h2
      exact ⟨rfl, (cons_exit h2).2⟩
    · intro h2
      simp [MainPc.started] at h2

theorem wk_set {c : Config} {ws : List Worker} {j : Nat} {w : Worker}
    (wk : ∀ (k : Nat) (x : Worker), ws[k]? = some x → x.i = k ∧ c.sites[k]? = some x.host)
    (hw : ws[j]? = some w) (pc1 : WorkerPc) :
    ∀ (k : Nat) (x : Worker), (ws.set j { w with pc := pc1 })[k]? = some x →
      x.i = k ∧ c.sites[k]? = some x.host := by
  intro k x hx
  rcases getElem?_set_some hx with ⟨rfl, rfl⟩ | ⟨_, hk⟩
  · exact wk k w hw
  · exact wk k x hk

theorem storedAt_set {s s1 : State} {j : Nat} {w : Worker} (hw : s.workers[j]? = some w)
    (pc1 : WorkerPc) (hs1 : s1.workers = s.workers.set j { w with pc := pc1 }) (k : Nat) :
    s1.storedAt k = if k = j then pc1.stored else s.storedAt k := by
  have hj : j < s.workers.length := by
    rcases List.getElem?_eq_some.1 hw with ⟨h, _⟩
    exact h
  unfold State.storedAt
  rw [hs1, List.getElem?_set]
  by_cases hk : k = j
  · subst hk
    simp [hj]
  · have hk2 : ¬ j = k := fun e => hk e.symm
    simp [hk, hk2]

theorem count_pc_set (f : WorkerPc → Bool) (ws : List Worker) (j : Nat) (w : Worker)
    (pc1 : WorkerPc) (hw : ws[j]? = some w) :
    (ws.set j { w with pc := pc1 }).countP (fun x => f x.pc) + (f w.pc).toNat =
      ws.countP (fun x => f x.pc) + (f pc1).toNat := by
  have := countP_set_of_getElem? (fun x : Worker => f x.pc) ws j w { w with pc := pc1 } hw
  cases h1 : f w.pc <;> cases h2 : f pc1 <;> simp [h1, h2] at this ⊢ <;> omega

theorem Inv.preserved_worker {c : Config} {j : Nat} {s s1 : State} (inv : Inv c s)
    (h : stepWorker c j s = some s1) : Inv c s1 := by
  obtain ⟨out_len, wk, main_len, spawn_lt, sem_eq, sem_le, wg_eq, sent_eq, prog_eq, closed_ret,
    late_wg, cons_exit, cons_ns, cons_started, stored_ok, writes_ok⟩ := inv
  obtain ⟨w, hw, hcases⟩ := stepWorker_some h
  have hwi : w.i = j := (wk j w hw).1
  have hholds := fun pc1 => count_pc_set WorkerPc.holds s.workers j w pc1 hw
  have hexit := fun pc1 => count_pc_set WorkerPc.isExited s.workers j w pc1 hw
  have hsent := fun pc1 => count_pc_set WorkerPc.hasSent s.workers j w pc1 hw
  rcases hcases with ⟨hpc, rfl⟩ | ⟨r, hpc, hlt, rfl⟩ | ⟨hpc, hcl, hpr, rfl⟩ | ⟨hpc, hsem, rfl⟩ |
    ⟨hpc, hwg, rfl⟩
  · -- `check` returns
    refine ⟨out_len, wk_set wk hw _, ?_, spawn_lt, ?_, sem_le, ?_, ?_, prog_eq, closed_ret,
      late_wg, cons_exit, cons_ns, cons_started, ?_, ?_⟩
    · simpa using main_len
    · have := hholds (WorkerPc.store (check (c.net w.i) w.host))
      rw [hpc] at this
      change _ + 1 = _ + 1 at this
      dsimp only [State.holders] at sem_eq ⊢
      omega
    · have := hexit (WorkerPc.store (check (c.net w.i) w.host))
      rw [hpc] at this
      change _ + 0 = _ + 0 at this
      dsimp only [State.holders] at sem_eq ⊢
      omega
    · have := hsent (WorkerPc.store (check (c.net w.i) w.host))
      rw [hpc] at this
      change _ + 0 = _ + 0 at this
      dsimp only [State.holders] at sem_eq ⊢
      omega
    · intro k x hx
      rcases getElem?_set_some hx with ⟨rfl, rfl⟩ | ⟨_, hk⟩
      · refine ⟨by simp [WorkerPc.stored], ?_⟩
        intro r hr
        simp only [WorkerPc.store.injEq] at hr
        rw [← hr, hwi]
      · exact stored_ok k x hk
    · intro k
      rw [storedAt_set hw _ rfl k]
      by_cases hk : k = j
      · subst hk
        have := writes_ok k
        rw [storedAt_eq hw, hpc] at this
        simpa [WorkerPc.stored] using this
      · simpa [hk] using writes_ok k
  · -- `out[i] = r`
    have hr : r = check (c.net j) w.host := (stored_ok j w hw).2 r hpc
    refine ⟨?_, wk_set wk hw _, ?_, spawn_lt, ?_, sem_le, ?_, ?_, prog_eq, closed_ret,
      late_wg, cons_exit, cons_ns, cons_started, ?_, ?_⟩
    · simpa using out_len
    · simpa using main_len
    · have := hholds (WorkerPc.send)
      rw [hpc] at this
      change _ + 1 = _ + 1 at this
      dsimp only [State.holders] at sem_eq ⊢
      omega
    · have := hexit (WorkerPc.send)
      rw [hpc] at this
      change _ + 0 = _ + 0 at this
      dsimp only [State.holders] at sem_eq ⊢
      omega
    · have := hsent (WorkerPc.send)
      rw [hpc] at this
      change _ + 0 = _ + 0 at this
      dsimp only [State.holders] at sem_eq ⊢
      omega
    · intro k x hx
      rcases getElem?_set_some hx with ⟨rfl, rfl⟩ | ⟨hne, hk⟩
      · refine ⟨?_, by simp⟩
        intro _
        show (s.out.set w.i r)[k]? = _
        rw [hwi, List.getElem?_set, if_pos rfl, if_pos (by omega), hr]
      · refine ⟨?_, (stored_ok k x hk).2⟩
        intro hst
        show (s.out.set w.i r)[k]? = _
        rw [hwi, List.getElem?_set_ne (fun e => hne e.symm)]
        exact (stored_ok k x hk).1 hst
    · intro k
      rw [storedAt_set hw _ rfl k]
      have hold := writes_ok k
      simp only [State.writersOf, List.filter_append, List.map_append] at hold ⊢
      rw [hold]
      by_cases hk : k = j
      · subst hk
        rw [storedAt_eq hw, hpc]
        simp [WorkerPc.stored, hwi]
      · have hk2 : ¬ w.i = k := by rw [hwi]; exact fun e => hk e.symm
        simp [hk, hk2]
  · -- send on `progressChan`
    refine ⟨out_len, wk_set wk hw _, ?_, spawn_lt, ?_, sem_le, ?_, ?_, ?_, closed_ret,
      late_wg, ?_, cons_ns, cons_started, ?_, ?_⟩
    · simpa using main_len
    · have := hholds (WorkerPc.release)
      rw [hpc] at this
      change _ + 1 = _ + 1 at this
      dsimp only [State.holders] at sem_eq ⊢
      omega
    · have := hexit (WorkerPc.release)
      rw [hpc] at this
      change _ + 0 = _ + 0 at this
      dsimp only [State.holders] at sem_eq ⊢
      omega
    · have := hsent (WorkerPc.release)
      rw [hpc] at this
      change _ + 0 = _ + 1 at this
      dsimp only [State.holders] at sem_eq ⊢
      omega
    · show s.progress + 1 + s.bar + s.consumer.pending = s.sent + 1
      omega
    · intro h2
      have := (cons_exit h2).1
      rw [hcl] at this
      cases this
    · intro k x hx
      rcases getElem?_set_some hx with ⟨rfl, rfl⟩ | ⟨_, hk⟩
      · refine ⟨?_, by simp⟩
        intro _
        exact (stored_ok k w hw).1 (by simp [hpc, WorkerPc.stored])
      · exact stored_ok k x hk
    · intro k
      rw [storedAt_set hw _ rfl k]
      by_cases hk : k = j
      · subst hk
        have := writes_ok k
        rw [storedAt_eq hw, hpc] at this
        simpa [WorkerPc.stored] using this
      · simpa [hk] using writes_ok k
  · -- deferred receive from `sem`
    refine ⟨out_len, wk_set wk hw _, ?_, spawn_lt, ?_, ?_, ?_, ?_, prog_eq, closed_ret,
      late_wg, cons_exit, cons_ns, cons_started, ?_, ?_⟩
    · simpa using main_len
    · have := hholds (WorkerPc.done)
      rw [hpc] at this
      change _ + 1 = _ + 0 at this
      dsimp only [State.holders] at sem_eq ⊢
      omega
    · show s.sem - 1 ≤ c.W
      omega
    · have := hexit (WorkerPc.done)
      rw [hpc] at this
      change _ + 0 = _ + 0 at this
      dsimp only [State.holders] at sem_eq ⊢
      omega
    · have := hsent (WorkerPc.done)
      rw [hpc] at this
      change _ + 1 = _ + 1 at this
      dsimp only [State.holders] at sem_eq ⊢
      omega
    · intro k x hx
      rcases getElem?_set_some hx with ⟨rfl, rfl⟩ | ⟨_, hk⟩
      · refine ⟨?_, by simp⟩
        intro _
        exact (stored_ok k w hw).1 (by simp [hpc, WorkerPc.stored])
      · exact stored_ok k x hk
    · intro k
      rw [storedAt_set hw _ rfl k]
      by_cases hk : k = j
      · subst hk
        have := writes_ok k
        rw [storedAt_eq hw, hpc] at this
        simpa [WorkerPc.stored] using this
      · simpa [hk] using writes_ok k
  · -- deferred `wg.Done()`
    refine ⟨out_len, wk_set wk hw _, ?_, spawn_lt, ?_, sem_le, ?_, ?_, prog_eq, closed_ret,
      ?_, cons_exit, cons_ns, cons_started, ?_, ?_⟩
    · simpa using main_len
    · have := hholds (WorkerPc.exited)
      rw [hpc] at this
      change _ + 0 = _ + 0 at this
      dsimp only [State.holders] at sem_eq ⊢
      omega
    · have := hexit (WorkerPc.exited)
      rw [hpc] at this
      change _ + 0 = _ + 1 at this
      dsimp only [State.holders] at sem_eq ⊢
      omega
    · have := hsent (WorkerPc.exited)
      rw [hpc] at this
      change _ + 1 = _ + 1 at this
      dsimp only [State.holders] at sem_eq ⊢
      omega
    · intro h2
      have := late_wg h2
      show s.wg - 1 = 0
      omega
    · intro k x hx
      rcases getElem?_set_some hx with ⟨rfl, rfl⟩ | ⟨_, hk⟩
      · refine ⟨?_, by simp⟩
        intro _
        exact (stored_ok k w hw).1 (by simp [hpc, WorkerPc.stored])
      · exact stored_ok k x hk
    · intro k
      rw [storedAt_set hw _ rfl k]
      by_cases hk : k = j
      · subst hk
        have := writes_ok k
        rw [storedAt_eq hw, hpc] at this
        simpa [WorkerPc.stored] using this
      · simpa [hk] using writes_ok k

theorem Inv.preserved_consumer {c : Config} {s s1 : State} (inv : Inv c s)
    (h : stepConsumer s = some s1) : Inv c s1 := by
  obtain ⟨out_len, wk, main_len, spawn_lt, sem_eq, sem_le, wg_eq, sent_eq, prog_eq, closed_ret,
    late_wg, cons_exit, cons_ns, cons_started, stored_ok, writes_ok⟩ := inv
  have hstarted : s.consumer ≠ ConsumerPc.notStarted → s.main.started = true := by
    intro hne
    cases hst : s.main.started
    · exact (hne (cons_started hst)).elim
    · rfl
  rcases stepConsumer_some h with ⟨hc, hp, rfl⟩ | ⟨hc, hp, hcl, rfl⟩ | ⟨hc, rfl⟩
  · refine ⟨out_len, wk, main_len, spawn_lt, sem_eq, sem_le, wg_eq, sent_eq, ?_, closed_ret,
      late_wg, ?_, ?_, ?_, stored_ok, writes_ok⟩
    · simp only [hc, ConsumerPc.pending] at prog_eq ⊢
      omega
    · intro h2
      simp at h2
    · intro h2
      simp at h2
    · intro h2
      have := hstarted (by rw [hc]; simp)
      rw [this] at h2
      cases h2
  · refine ⟨out_len, wk, main_len, spawn_lt, sem_eq, sem_le, wg_eq, sent_eq, ?_, closed_ret,
      late_wg, ?_, ?_, ?_, stored_ok, writes_ok⟩
    · simpa [hc, ConsumerPc.pending] using prog_eq
    · intro _
      exact ⟨hcl, hp⟩
    · intro h2
      simp at h2
    · intro h2
      have := hstarted (by rw [hc]; simp)
      rw [this] at h2
      cases h2
  · refine ⟨out_len, wk, main_len, spawn_lt, sem_eq, sem_le, wg_eq, sent_eq, ?_, closed_ret,
      late_wg, ?_, ?_, ?_, stored_ok, writes_ok⟩
    · simp only [hc, ConsumerPc.pending] at prog_eq ⊢
      omega
    · intro h2
      simp at h2
    · intro h2
      simp at h2
    · intro h2
      have := hstarted (by rw [hc]; simp)
      rw [this] at h2
      cases h2

theorem Inv.preserved {c : Config} {a : Actor} {s s1 : State} (inv : Inv c s)
    (h : step c a s = some s1) : Inv c s1 := by
  cases a with
  | main => exact inv.preserved_main h
  | worker j => exact inv.preserved_worker h
  | consumer => exact inv.preserved_consumer h

theorem reachable_inv {c : Config} {s : State} (h : Reachable c s) : Inv c s := by
  induction h with
  | init => exact Inv.init c
  | step a _ hs ih => exact ih.preserved hs

theorem measure_decreases {c : Config} {a : Actor} {s s1 : State} (h : step c a s = some s1) :
    s1.measure c < s.measure c := by
  cases a with
  | main =>
    rcases stepMain_some h with ⟨i, hm, hi, hsem, rfl⟩ | ⟨i, hm, hi, rfl⟩ | ⟨i, hh, hm, hs, rfl⟩ |
      ⟨hm, rfl⟩ | ⟨hm, hwg, rfl⟩ | ⟨hm, rfl⟩
    · simp only [State.measure, hm, MainPc.weight]
      omega
    · simp only [State.measure, hm, MainPc.weight]
      omega
    · have hi : i < c.sites.length := by
        rcases List.getElem?_eq_some.1 hs with ⟨h1, _⟩
        exact h1
      simp only [State.measure, hm, MainPc.weight, List.map_append, List.sum_append,
        List.map_cons, List.map_nil, List.sum_cons, List.sum_nil, WorkerPc.weight]
      omega
    · simp only [State.measure, hm, MainPc.weight, ConsumerPc.weight]
      cases s.consumer <;> simp only [ConsumerPc.weight] <;> omega
    · simp only [State.measure, hm, MainPc.weight]
      omega
    · simp only [State.measure, hm, MainPc.weight]
      omega
  | worker j =>
    obtain ⟨w, hw, hcases⟩ := stepWorker_some h
    have hsum := fun pc1 : WorkerPc =>
      sum_map_set_of_getElem? (fun x : Worker => x.pc.weight) s.workers j w { w with pc := pc1 } hw
    rcases hcases with ⟨hpc, rfl⟩ | ⟨r, hpc, hlt, rfl⟩ | ⟨hpc, hcl, hpr, rfl⟩ | ⟨hpc, hsem, rfl⟩ |
      ⟨hpc, hwg, rfl⟩
    · have := hsum (WorkerPc.store (check (c.net w.i) w.host))
      rw [hpc] at this
      change _ + 7 = _ + 6 at this
      dsimp only [State.measure]
      omega
    · have := hsum WorkerPc.send
      rw [hpc] at this
      change _ + 6 = _ + 5 at this
      dsimp only [State.measure]
      omega
    · have := hsum WorkerPc.release
      rw [hpc] at this
      change _ + 5 = _ + 2 at this
      dsimp only [State.measure]
      omega
    · have := hsum WorkerPc.done
      rw [hpc] at this
      change _ + 2 = _ + 1 at this
      dsimp only [State.measure]
      omega
    · have := hsum WorkerPc.exited
      rw [hpc] at this
      change _ + 1 = _ + 0 at this
      dsimp only [State.measure]
      omega
  | consumer =>
    rcases stepConsumer_some h with ⟨hc, hp, rfl⟩ | ⟨hc, hp, hcl, rfl⟩ | ⟨hc, rfl⟩
    · simp only [State.measure, hc, ConsumerPc.weight]
      omega
    · simp only [State.measure, hc, ConsumerPc.weight]
      omega
    · simp only [State.measure, hc, ConsumerPc.weight]
      omega

theorem countP_lt_length_of {α : Type} (p : α → Bool) (l : List α) (j : Nat) (a : α)
    (h : l[j]? = some a) (hp : p a = false) : l.countP p < l.length := by
  have hle := @List.countP_le_length α p l
  have hne : l.countP p ≠ l.length := by
    intro he
    have hall := List.countP_eq_length.1 he
    have := hall a (List.mem_iff_getElem?.2 ⟨j, h⟩)
    rw [hp] at this
    cases this
  omega

theorem countP_pos_of {α : Type} (p : α → Bool) (l : List α) (j : Nat) (a : α)
    (h : l[j]? = some a) (hp : p a = true) : 0 < l.countP p :=
  List.countP_pos_iff.2 ⟨a, List.mem_iff_getElem?.2 ⟨j, h⟩, hp⟩

/-- A worker that has not ended can always take its next step: no action of
a worker blocks or panics in a reachable state. -/
theorem Inv.worker_enabled {c : Config} {s : State} (inv : Inv c s) {j : Nat} {w : Worker}
    (hw : s.workers[j]? = some w) (hpc : w.pc ≠ WorkerPc.exited) :
    ∃ s1, stepWorker c j s = some s1 := by
  have hlen := inv.workers_le
  have hj : j < s.workers.length := by
    rcases List.getElem?_eq_some.1 hw with ⟨h, _⟩
    exact h
  have hnex : s.workers.countP (fun x => x.pc.isExited) < s.workers.length := by
    apply countP_lt_length_of _ _ j w hw
    cases hp : w.pc <;> simp_all [WorkerPc.isExited]
  have hwg : 0 < s.wg := by
    have := inv.wg_eq
    omega
  have hopen : s.closed = false := by
    cases hc : s.closed
    · rfl
    · have := inv.late_wg (Or.inr (inv.closed_ret hc))
      omega
  apply Option.isSome_iff_exists.1
  cases hp : w.pc with
  | call => simp [stepWorker, hw, hp]
  | store r =>
    have h1 : w.i < s.out.length := by
      rw [(inv.wk j w hw).1, inv.out_len]
      omega
    simp [stepWorker, hw, hp, h1]
  | send =>
    have h1 : s.workers.countP (fun x => x.pc.hasSent) < s.workers.length := by
      apply countP_lt_length_of _ _ j w hw
      simp [hp, WorkerPc.hasSent]
    have h2 : s.progress < c.sites.length := by
      have := inv.prog_eq
      have := inv.sent_eq
      omega
    simp [stepWorker, hw, hp, hopen, h2]
  | release =>
    have h1 : 0 < s.holders := by
      apply countP_pos_of _ _ j w hw
      simp [hp, WorkerPc.holds]
    have h2 : 0 < s.sem := by
      have := inv.sem_eq
      omega
    simp [stepWorker, hw, hp, h2]
  | done => simp [stepWorker, hw, hp, hwg]
  | exited => exact (hpc hp).elim

/-- The goroutine executing `run` blocks only at the admission gate (the
send on `sem` while `W` permits are out) and at the join `wg.Wait()`. -/
theorem Inv.main_blocked {c : Config} {s : State} (inv : Inv c s) (h : stepMain c s = none) :
    (∃ i, s.main = MainPc.loop i ∧ i < c.sites.length ∧ s.sem = c.W) ∨
    (s.main = MainPc.wait ∧ 0 < s.wg) ∨ s.main = MainPc.returned := by
  unfold stepMain at h
  split at h
  · rename_i i hm
    split at h
    · split at h
      · simp at h
      · rename_i hi hs
        have := inv.sem_le
        exact Or.inl ⟨i, hm, hi, by omega⟩
    · simp at h
  · rename_i i hm
    split at h
    · simp at h
    · rename_i hs
      have hi := inv.spawn_lt i hm
      have : c.sites[i]? = some c.sites[i] := List.getElem?_eq_getElem hi
      rw [this] at hs
      cases hs
  · simp at h
  · rename_i hm
    split at h
    · simp at h
    · exact Or.inr (Or.inl ⟨hm, by omega⟩)
  · simp at h
  · rename_i hm
    exact Or.inr (Or.inr hm)

/-- No deadlock: while `run` has not returned, the goroutine executing `run`
or a worker has an enabled step, whatever the consumer does. -/
theorem Inv.not_stuck {c : Config} {s : State} (inv : Inv c s) (hW : 0 < c.W)
    (hret : s.main ≠ MainPc.returned) :
    ∃ a s1, a.notConsumer = true ∧ step c a s = some s1 := by
  cases hmain : stepMain c s with
  | some s1 => exact ⟨Actor.main, s1, rfl, hmain⟩
  | none =>
    rcases inv.main_blocked hmain with ⟨i, hm, hi, hsem⟩ | ⟨hm, hwg⟩ | hm
    · have h1 : 0 < s.holders := by
        have := inv.sem_eq
        simp only [hm, MainPc.pending] at this
        omega
      obtain ⟨w, hmem, hw⟩ := List.countP_pos_iff.1 h1
      obtain ⟨j, hj⟩ := List.mem_iff_getElem?.1 hmem
      have hne : w.pc ≠ WorkerPc.exited := by
        intro he
        rw [he] at hw
        simp [WorkerPc.holds] at hw
      obtain ⟨s1, hs1⟩ := inv.worker_enabled hj hne
      exact ⟨Actor.worker j, s1, rfl, hs1⟩
    · have h1 : ¬ (s.workers.countP (fun x => x.pc.isExited) = s.workers.length) := by
        have := inv.wg_eq
        have := inv.main_len
        simp only [hm, MainPc.spawned] at this
        omega
      rw [List.countP_eq_length] at h1
      push_neg at h1
      obtain ⟨w, hmem, hw⟩ := h1
      obtain ⟨j, hj⟩ := List.mem_iff_getElem?.1 hmem
      have hne : w.pc ≠ WorkerPc.exited := by
        intro he
        rw [he] at hw
        simp [WorkerPc.isExited] at hw
      obtain ⟨s1, hs1⟩ := inv.worker_enabled hj hne
      exact ⟨Actor.worker j, s1, rfl, hs1⟩
    · exact (hret hm).elim

/-- A property that leaves an allowed step enabled in every reachable state
where it does not hold yet is reached by every maximal execution of the
allowed goroutines: every step lowers the measure. -/
theorem inevitably_of_enabled {c : Config} (allowed : Actor → Bool) (P : State → Prop)
    (hen : ∀ s, Reachable c s → ¬ P s → ∃ a s1, allowed a = true ∧ step c a s = some s1) :
    ∀ s, Reachable c s → Inevitably c allowed P s := by
  have key : ∀ n s, s.measure c ≤ n → Reachable c s → Inevitably c allowed P s := by
    intro n
    induction n with
    | zero =>
      intro s hn hr
      by_cases hp : P s
      · exact Inevitably.now hp
      · obtain ⟨a, s1, _, hs1⟩ := hen s hr hp
        have := measure_decreases hs1
        omega
    | succ n ih =>
      intro s hn hr
      by_cases hp : P s
      · exact Inevitably.now hp
      · refine Inevitably.later (hen s hr hp) ?_
        intro b s2 _ hs2
        have := measure_decreases hs2
        exact ih s2 (by omega) (Reachable.step b hr hs2)
  intro s hr
  exact key _ s (le_refl _) hr

/-- Every maximal execution of a reachable state reaches the return of `run`,
as long as the goroutine executing `run` and the workers are scheduled. -/
theorem inevitably_returned {c : Config} (hW : 0 < c.W) (allowed : Actor → Bool)
    (hall : ∀ a, a.notConsumer = true → allowed a = true) :
    ∀ s, Reachable c s → Inevitably c allowed (fun t => t.returned = true) s := by
  apply inevitably_of_enabled
  intro s hr hp
  have hret : s.main ≠ MainPc.returned := by
    intro h
    exact hp (by simp [State.returned, h])
  obtain ⟨a, s1, ha, hs1⟩ := (reachable_inv hr).not_stuck hW hret
  exact ⟨a, s1, hall a ha, hs1⟩

theorem reachable_of_exec {c : Config} (as : List Actor) {s s1 : State} (hr : Reachable c s)
    (h : exec c as s = some s1) : Reachable c s1 := by
  induction as generalizing s with
  | nil =>
    simp only [exec, Option.some.injEq] at h
    exact h ▸ hr
  | cons a as ih =>
    simp only [exec] at h
    cases hs : step c a s with
    | none => rw [hs] at h; simp at h
    | some s2 =>
      rw [hs] at h
      exact ih (Reachable.step a hr hs) h

/-- What is inevitable is reached by some executable schedule. -/
theorem Inevitably.exists_exec {c : Config} {allowed : Actor → Bool} {P : State → Prop}
    {s : State} (h : Inevitably c allowed P s) :
    ∃ (as : List Actor) (s1 : State), exec c as s = some s1 ∧ P s1 := by
  induction h with
  | now hp => exact ⟨[], _, rfl, hp⟩
  | later hex _ ih =>
    obtain ⟨a, s1, ha, hs1⟩ := hex
    obtain ⟨as, s2, h2, hp⟩ := ih a s1 ha hs1
    exact ⟨a :: as, s2, by simp [exec, hs1, h2], hp⟩

theorem httpLoop_host (net : Net) (us : List String) (rt : Result × List Call) :
    (httpLoop net us rt).1.Host = rt.1.Host := by
  induction us generalizing rt with
  | nil => rfl
  | cons u us ih =>
    obtain ⟨r, tr⟩ := rt
    simp only [httpLoop]
    split
    · rfl
    · exact ih _

theorem check_host (net : Net) (host : String) : (check net host).Host = host := by
  unfold check checkTraced
  rw [httpLoop_host]
  unfold dnsTcpStage
  dsimp only
  generalize net.LookupIPAddr host = ips
  generalize net.Dial "tcp" (host ++ ":80") = a
  generalize net.Dial "tcp" (host ++ ":443") = b
  obtain ⟨n, ok⟩ := ips
  cases ok <;> cases a <;> cases b <;> by_cases h : 0 < n <;> simp [h]

theorem exec_stateAfter {c : Config} {as : List Actor}
    (h : (exec c as (State.init c)).isSome = true) :
    exec c as (State.init c) = some (stateAfter c as) := by
  unfold stateAfter
  cases he : exec c as (State.init c) with
  | none => rw [he] at h; cases h
  | some s => rfl

theorem reachable_stateAfter {c : Config} {as : List Actor}
    (h : (exec c as (State.init c)).isSome = true) : Reachable c (stateAfter c as) :=
  reachable_of_exec as Reachable.init (exec_stateAfter h)

/-- All workers have ended once `run` has returned. -/
theorem Inv.all_exited {c : Config} {s : State} (inv : Inv c s) (hret : s.returned = true) :
    s.workers.length = c.sites.length ∧
    ∀ (j : Nat) (w : Worker), s.workers[j]? = some w → w.pc = WorkerPc.exited := by
  have hm : s.main = MainPc.returned := by simpa [State.returned] using hret
  have hlen : s.workers.length = c.sites.length := by
    have := inv.main_len
    simpa [hm, MainPc.spawned] using this
  refine ⟨hlen, ?_⟩
  have hwg := inv.late_wg (Or.inr hm)
  have hcount : s.workers.countP (fun w => w.pc.isExited) = s.workers.length := by
    have := inv.wg_eq
    omega
  intro j w hw
  have := List.countP_eq_length.1 hcount w (List.mem_iff_getElem?.2 ⟨j, hw⟩)
  cases hp : w.pc <;> simp_all [WorkerPc.isExited]

/-- C1. For every host list and every interleaving of the goroutines of
`run`: with a positive worker ceiling every maximal execution reaches the
return of `run`, so some schedule makes `run` return; whatever the schedule,
the slice `run` returns has exactly `len(sites)` entries and its entry at
index `i` is the result of `check` on `sites[i]` (so its Host is
`sites[i]`); and in every reachable state in which `run` has returned, slot
`i` of `out` was assigned exactly once, by the worker at position `i` in
spawn order, which was spawned with the arguments `(i, sites[i])`. -/
theorem run_ordered (c : Config) :
    (0 < c.W →
      Inevitably c (fun _ => true) (fun t => t.returned = true) (State.init c) ∧
      ∃ (sched : List Actor) (out : List Result), run c sched = some out) ∧
    (∀ (sched : List Actor) (out : List Result), run c sched = some out →
      out.length = c.sites.length ∧
      ∀ (i : Nat) (host : String), c.sites[i]? = some host →
        out[i]? = some (check (c.net i) host) ∧ (check (c.net i) host).Host = host) ∧
    (∀ s : State, Reachable c s → s.returned = true →
      s.out.length = c.sites.length ∧
      (∀ (i : Nat) (host : String), c.sites[i]? = some host →
        s.out[i]? = some (check (c.net i) host) ∧ (check (c.net i) host).Host = host) ∧
      (∀ i : Nat, s.writersOf i = if i < c.sites.length then [i] else []) ∧
      (∀ (i : Nat) (host : String), c.sites[i]? = some host →
        s.workers[i]? = some { i := i, host := host, pc := WorkerPc.exited })) := by
  have hsafe : ∀ s : State, Reachable c s → s.returned = true →
      s.out.length = c.sites.length ∧
      (∀ (i : Nat) (host : String), c.sites[i]? = some host →
        s.out[i]? = some (check (c.net i) host) ∧ (check (c.net i) host).Host = host) ∧
      (∀ i : Nat, s.writersOf i = if i < c.sites.length then [i] else []) ∧
      (∀ (i : Nat) (host : String), c.sites[i]? = some host →
        s.workers[i]? = some { i := i, host := host, pc := WorkerPc.exited }) := by
    intro s hr hret
    have inv := reachable_inv hr
    obtain ⟨hlen, hex⟩ := inv.all_exited hret
    have hworker : ∀ (i : Nat) (host : String), c.sites[i]? = some host →
        s.workers[i]? = some { i := i, host := host, pc := WorkerPc.exited } := by
      intro i host hi
      have hi2 : i < s.workers.length := by
        rcases List.getElem?_eq_some.1 hi with ⟨h, _⟩
        omega
      have hw : s.workers[i]? = some s.workers[i] := List.getElem?_eq_getElem hi2
      obtain ⟨h1, h2⟩ := inv.wk i _ hw
      have h3 := hex i _ hw
      rw [hi] at h2
      simp only [Option.some.injEq] at h2
      rw [hw]
      congr 1
      generalize s.workers[i] = w at h1 h2 h3
      obtain ⟨wi, wh, wp⟩ := w
      simp only at h1 h2 h3
      subst h1 h2 h3
      rfl
    refine ⟨inv.out_len, ?_, ?_, hworker⟩
    · intro i host hi
      have hw := hworker i host hi
      refine ⟨?_, check_host _ _⟩
      exact (inv.stored_ok i _ hw).1 rfl
    · intro i
      rw [inv.writes_ok i]
      by_cases hi : i < c.sites.length
      · have hw := hworker i _ (List.getElem?_eq_getElem hi)
        simp [storedAt_eq hw, WorkerPc.stored, hi]
      · have hn : s.workers[i]? = none := List.getElem?_eq_none (by omega)
        simp [State.storedAt, hn, hi]
  refine ⟨?_, ?_, hsafe⟩
  · intro hW
    have hinev := inevitably_returned hW (fun _ => true) (fun _ _ => rfl) _
      (Reachable.init : Reachable c (State.init c))
    refine ⟨hinev, ?_⟩
    obtain ⟨as, s1, h1, h2⟩ := hinev.exists_exec
    have hm : s1.main = MainPc.returned := by simpa [State.returned] using h2
    exact ⟨as, s1.out, by simp [run, h1, hm]⟩
  · intro sched out hrun
    unfold run at hrun
    cases he : exec c sched (State.init c) with
    | none => rw [he] at hrun; simp at hrun
    | some s =>
      rw [he] at hrun
      by_cases hm : s.main = MainPc.returned
      · simp only [hm, if_true, Option.some.injEq] at hrun
        subst hrun
        have h := hsafe s (reachable_of_exec sched Reachable.init he)
          (by simp [State.returned, hm])
        exact ⟨h.1, h.2.1⟩
      · simp [hm] at hrun

theorem schedTwo_ok : (exec cfgTwo schedTwo (State.init cfgTwo)).isSome = true := by decide

/-- Witness of C1: two hosts, the second worker completing before the first
starts; the slots are assigned in the order 1, 0 and `out` is in input order. -/
theorem run_ordered_witness :
    (stateAfter cfgTwo schedTwo).returned = true ∧
    (stateAfter cfgTwo schedTwo).writes = [(1, 1), (0, 0)] ∧
    (stateAfter cfgTwo schedTwo).out.length = 2 ∧
    (stateAfter cfgTwo schedTwo).out[1]? = some (check Net.down "t.me") :=
  have h := (run_ordered cfgTwo).2.2 (stateAfter cfgTwo schedTwo)
    (reachable_stateAfter schedTwo_ok) (by decide)
  ⟨by decide, by decide, h.1, (h.2.1 1 "t.me" rfl).1⟩

/-- C2. In every reachable state of a run with worker ceiling `W`, for any
number of hosts, the number of calls of `check` in flight is at most `W`:
every such call belongs to a worker holding a permit of `sem`, the workers
holding a permit are at most the elements buffered in `sem`, and `sem`
never holds more than `W` elements. -/
theorem inflight_le_workers (c : Config) (s : State) (hr : Reachable c s) :
    s.inFlight ≤ c.W ∧ s.inFlight ≤ s.holders ∧ s.holders ≤ s.sem ∧ s.sem ≤ c.W := by
  have inv := reachable_inv hr
  have h1 : s.inFlight ≤ s.holders := by
    unfold State.inFlight State.holders
    apply List.countP_mono_left
    intro w _ hw
    cases hp : w.pc <;> simp_all [WorkerPc.inCheck, WorkerPc.holds]
  have h2 : s.holders ≤ s.sem := by
    have := inv.sem_eq
    omega
  have h3 := inv.sem_le
  exact ⟨by omega, h1, h2, h3⟩

theorem schedFull_ok :
    (exec cfgAllowed (List.replicate 20 Actor.main) (State.init cfgAllowed)).isSome = true := by
  decide

/-- Witness of C2: `run(allowedSites)`, 23 hosts, after ten workers were
dispatched: ten calls of `check` are in flight and the eleventh send on
`sem` is not enabled. -/
theorem inflight_le_workers_witness :
    cfgAllowed.sites.length = 23 ∧
    (stateAfter cfgAllowed (List.replicate 20 Actor.main)).inFlight = 10 ∧
    step cfgAllowed Actor.main (stateAfter cfgAllowed (List.replicate 20 Actor.main)) = none ∧
    (stateAfter cfgAllowed (List.replicate 20 Actor.main)).inFlight ≤ workers :=
  ⟨by decide, by decide, by decide,
    (inflight_le_workers cfgAllowed (stateAfter cfgAllowed (List.replicate 20 Actor.main))
      (reachable_stateAfter schedFull_ok)).1⟩

/-- Once `run` has returned the channel is closed, and the consumer has been
started before `run` reaches `wg.Wait()`. -/
theorem reachable_closed {c : Config} {s : State} (hr : Reachable c s) :
    (s.main = MainPc.returned → s.closed = true) ∧
    (s.consumer = ConsumerPc.notStarted → s.main.started = false) := by
  induction hr with
  | init => simp [State.init, MainPc.started]
  | step a _ hs ih =>
    obtain ⟨ih1, ih2⟩ := ih
    cases a with
    | main =>
      rcases stepMain_some hs with ⟨i, hm, hi, hsem, rfl⟩ | ⟨i, hm, hi, rfl⟩ |
        ⟨i, hh, hm, hs, rfl⟩ | ⟨hm, rfl⟩ | ⟨hm, hwg, rfl⟩ | ⟨hm, rfl⟩
      · simp [MainPc.started]
      · simp [MainPc.started]
      · simp [MainPc.started]
      · simp [MainPc.started]
      · refine ⟨by simp, ?_⟩
        intro h
        have := ih2 h
        simp [hm, MainPc.started] at this
      · refine ⟨by simp, ?_⟩
        intro h
        have := ih2 h
        simp [hm, MainPc.started] at this
    | worker j =>
      obtain ⟨w, hw, hcases⟩ := stepWorker_some hs
      rcases hcases with ⟨_, rfl⟩ | ⟨r, _, _, rfl⟩ | ⟨_, _, _, rfl⟩ | ⟨_, _, rfl⟩ | ⟨_, _, rfl⟩ <;>
        exact ⟨ih1, ih2⟩
    | consumer =>
      rcases stepConsumer_some hs with ⟨hc, hp, rfl⟩ | ⟨hc, hp, hcl, rfl⟩ | ⟨hc, rfl⟩
      · exact ⟨ih1, by simp⟩
      · exact ⟨ih1, by simp⟩
      · exact ⟨ih1, by simp⟩

/-- Where the advance signals are, in every reachable state of a run over `N`
hosts: the bar has received at most `N`. When `run` has returned, exactly
`N` signals have been sent on `progressChan`, and each of them has reached
`bar.Add`, is still buffered, or is in the hands of the consumer. The bar
has received exactly `N` only once the consumer has left its loop; in this
transition system, where the goroutines go on being scheduled after `run`
has returned and the process does not exit, every maximal execution gets
there (with a positive worker ceiling). -/
theorem bar_after_drain (c : Config) (s : State) (hr : Reachable c s) :
    s.bar ≤ c.sites.length ∧
    (s.returned = true →
      s.sent = c.sites.length ∧
      s.bar + s.progress + s.consumer.pending = c.sites.length) ∧
    (s.consumer = ConsumerPc.exited → s.bar = c.sites.length) ∧
    (0 < c.W →
      Inevitably c (fun _ => true)
        (fun t => t.consumer = ConsumerPc.exited ∧ t.bar = c.sites.length) s) ∧
    (c.sites.length = 0 → s.bar = 0) := by
  have hsent : ∀ t, Reachable c t → t.sent ≤ c.sites.length := by
    intro t ht
    have inv := reachable_inv ht
    have h1 := inv.workers_le
    have h2 := @List.countP_le_length Worker (fun w : Worker => w.pc.hasSent) t.workers
    have h3 := inv.sent_eq
    omega
  have hret : ∀ t, Reachable c t → t.returned = true → t.sent = c.sites.length := by
    intro t ht hrt
    have inv := reachable_inv ht
    obtain ⟨hlen, hex⟩ := inv.all_exited hrt
    rw [inv.sent_eq, ← hlen]
    apply List.countP_eq_length.2
    intro w hmem
    obtain ⟨j, hj⟩ := List.mem_iff_getElem?.1 hmem
    rw [hex j w hj]
    rfl
  have hexit : ∀ t, Reachable c t → t.consumer = ConsumerPc.exited →
      t.bar = c.sites.length := by
    intro t ht he
    have inv := reachable_inv ht
    obtain ⟨h1, h2⟩ := inv.cons_exit he
    have h3 := hret t ht (by simp [State.returned, inv.closed_ret h1])
    have h4 := inv.prog_eq
    rw [he] at h4
    simp only [ConsumerPc.pending] at h4
    omega
  have inv := reachable_inv hr
  have hp := inv.prog_eq
  have hs := hsent s hr
  refine ⟨by omega, ?_, hexit s hr, ?_, by omega⟩
  · intro hrt
    have := hret s hr hrt
    exact ⟨this, by omega⟩
  · intro hW
    apply inevitably_of_enabled
    · intro t ht hP
      by_cases hm : t.main = MainPc.returned
      · obtain ⟨c1, c2⟩ := reachable_closed ht
        have hcl := c1 hm
        have hen : (stepConsumer t).isSome = true := by
          cases hcons : t.consumer with
          | notStarted =>
            have := c2 hcons
            simp [hm, MainPc.started] at this
          | recv =>
            by_cases hpr : 0 < t.progress
            · simp [stepConsumer, hcons, hpr]
            · simp [stepConsumer, hcons, hpr, hcl]
          | add => simp [stepConsumer, hcons]
          | exited => exact (hP ⟨hcons, hexit t ht hcons⟩).elim
        obtain ⟨s1, hs1⟩ := Option.isSome_iff_exists.1 hen
        exact ⟨Actor.consumer, s1, rfl, hs1⟩
      · obtain ⟨a, s1, _, hs1⟩ := (reachable_inv ht).not_stuck hW hm
        exact ⟨a, s1, rfl, hs1⟩
    · exact hr

theorem schedDrain_ok :
    (exec cfgAllowed (schedNoConsumer 23 ++ drain 23) (State.init cfgAllowed)).isSome = true := by
  decide

/-- An instance: `run(allowedSites)` has returned with all 23 signals still
buffered, then the consumer drains the channel; the bar ends with 23. -/
theorem bar_after_drain_allowed :
    (stateAfter cfgAllowed (schedNoConsumer 23 ++ drain 23)).returned = true ∧
    (stateAfter cfgAllowed (schedNoConsumer 23 ++ drain 23)).consumer = ConsumerPc.exited ∧
    (stateAfter cfgAllowed (schedNoConsumer 23 ++ drain 23)).bar = 23 :=
  ⟨by decide, by decide,
    (bar_after_drain cfgAllowed (stateAfter cfgAllowed (schedNoConsumer 23 ++ drain 23))
      (reachable_stateAfter schedDrain_ok)).2.2.1 (by decide)⟩

/-- C3. The progress sink is to have received exactly `N` advance signals at
the moment `run` returns. The code does not ensure it: `run` joins the
workers but not the consumer it started. At the failing input,
`run(allowedSites)` with every worker run to completion as soon as it is
spawned and the consumer not scheduled before `run` returns, `run` returns
with all 23 signals sent and still buffered in `progressChan`, and `bar.Add`
has not been called once. -/
theorem bar_lags_at_return :
    (run cfgAllowed (schedNoConsumer 23)).isSome = true ∧
    cfgAllowed.sites.length = 23 ∧
    (stateAfter cfgAllowed (schedNoConsumer 23)).returned = true ∧
    (stateAfter cfgAllowed (schedNoConsumer 23)).sent = 23 ∧
    (stateAfter cfgAllowed (schedNoConsumer 23)).progress = 23 ∧
    (stateAfter cfgAllowed (schedNoConsumer 23)).bar = 0 := by
  decide

/-- C9. In every reachable state of a run over `N` hosts: at most `N`
signals have been sent and at most `N` are buffered in `progressChan`; a
worker about to send can send at once, whether or not the consumer has been
started or ever runs; no step of a worker that has not ended is blocked;
the goroutine executing `run` is blocked only at the admission gate (`sem`
full) or at `wg.Wait()` (a worker still running); and with a positive worker
ceiling every maximal execution in which the consumer is never scheduled
reaches the return of `run` (each call of `check` being one step that
returns). -/
theorem progress_never_blocks (c : Config) (s : State) (hr : Reachable c s) :
    s.progress ≤ c.sites.length ∧ s.sent ≤ c.sites.length ∧ s.progress ≤ s.sent ∧
    (∀ (j : Nat) (w : Worker), s.workers[j]? = some w → w.pc = WorkerPc.send →
      ∃ s1, step c (Actor.worker j) s = some s1 ∧ s1.progress = s.progress + 1) ∧
    (∀ (j : Nat) (w : Worker), s.workers[j]? = some w → w.pc ≠ WorkerPc.exited →
      ∃ s1, step c (Actor.worker j) s = some s1) ∧
    (step c Actor.main s = none →
      (∃ i, s.main = MainPc.loop i ∧ i < c.sites.length ∧ s.sem = c.W) ∨
      (s.main = MainPc.wait ∧ 0 < s.wg) ∨ s.main = MainPc.returned) ∧
    (0 < c.W → Inevitably c Actor.notConsumer (fun t => t.returned = true) s) := by
  have inv := reachable_inv hr
  have hlen := inv.workers_le
  have hs : s.sent ≤ c.sites.length := by
    rw [inv.sent_eq]
    have := @List.countP_le_length Worker (fun w : Worker => w.pc.hasSent) s.workers
    omega
  have hp := inv.prog_eq
  refine ⟨by omega, hs, by omega, ?_, ?_, ?_, ?_⟩
  · intro j w hw hpc
    obtain ⟨s1, hs1⟩ := inv.worker_enabled hw (by rw [hpc]; simp)
    refine ⟨s1, hs1, ?_⟩
    obtain ⟨w2, hw2, hcases⟩ := stepWorker_some hs1
    rw [hw] at hw2
    simp only [Option.some.injEq] at hw2
    subst hw2
    rcases hcases with ⟨h1, _⟩ | ⟨r, h1, _⟩ | ⟨_, _, _, rfl⟩ | ⟨h1, _⟩ | ⟨h1, _⟩
    · rw [hpc] at h1; cases h1
    · rw [hpc] at h1; cases h1
    · rfl
    · rw [hpc] at h1; cases h1
    · rw [hpc] at h1; cases h1
  · intro j w hw hpc
    exact inv.worker_enabled hw hpc
  · intro hnone
    exact inv.main_blocked hnone
  · intro hW
    exact inevitably_returned hW _ (fun _ h => h) s hr

theorem schedSend_ok :
    (exec cfgTwo [Actor.main, Actor.main, Actor.worker 0, Actor.worker 0]
      (State.init cfgTwo)).isSome = true := by
  decide

/-- Witness of C9: the first worker is about to send its signal while the
consumer has not been started; the send is enabled. -/
theorem progress_never_blocks_witness :
    (stateAfter cfgTwo [Actor.main, Actor.main, Actor.worker 0, Actor.worker 0]).consumer
      = ConsumerPc.notStarted ∧
    ∃ s1, step cfgTwo (Actor.worker 0)
        (stateAfter cfgTwo [Actor.main, Actor.main, Actor.worker 0, Actor.worker 0]) = some s1 ∧
      s1.progress =
        (stateAfter cfgTwo [Actor.main, Actor.main, Actor.worker 0, Actor.worker 0]).progress + 1 :=
  ⟨by decide,
    (progress_never_blocks cfgTwo
      (stateAfter cfgTwo [Actor.main, Actor.main, Actor.worker 0, Actor.worker 0])
      (reachable_stateAfter schedSend_ok)).2.2.2.1 0
      { i := 0, host := "ya.ru", pc := WorkerPc.send } (by decide) rfl⟩

end WLC
